import Mathlib

/-!
Verification development for the NS-Node-Setup-Helper parsing-and-rendering
pair. The JavaScript/TypeScript sources are shallowly embedded:

* JSON values are an exact tree (`JSValue`), with numbers as exact decimals
  (`JDec`, mantissa times `10 ^ -exp`) — the fragment of IEEE doubles that the
  claims exercise behaves exactly like these decimals.
* `JSON.parse` is a character-level, fuel-indexed parser `jsonParse`;
  `JSON.stringify` is `jsonStringify`; both follow the JSON grammar the JS
  builtins implement (whitespace, escapes, no leading zeros, etc.).
* The two recovery parsers `parseJsonFromString` (generate-pdf route) and
  `parseModelJson` (recommendations route), the normalizer `normalizeInput`,
  `coerceNumber` / `formatMoney`, `unwrapRecommendations`, and the PDF
  drawing pipeline of the generate-pdf POST handler are translated
  branch-for-branch from the source.
* Vertical geometry in the renderer is kept in integer twenty-fifths of a
  PDF point, so every constant of the source (1.2, 0.4, 1.6, 50, 792, ...)
  is represented exactly: 1 pt = 25 units.
-/

namespace NS

/-! ## Character and string utilities (JS `trim`, `split`, whitespace) -/

/-- The whitespace characters of JS regex `\s` / `String.prototype.trim`
(ASCII fragment: space, tab, LF, CR, VT, FF, NBSP). -/
def jsWsChar (c : Char) : Bool :=
  c = ' ' || c = '\t' || c = '\n' || c = '\r' || c = '\x0b' || c = '\x0c' || c = '\xa0'

/-- JSON grammar whitespace (the only four characters `JSON.parse` skips). -/
def jsonWsChar (c : Char) : Bool :=
  c = ' ' || c = '\t' || c = '\n' || c = '\r'

/-- Drop trailing characters satisfying `p`. -/
def dropTrailing (p : Char → Bool) (cs : List Char) : List Char :=
  (cs.reverse.dropWhile p).reverse

/-- JS `String.prototype.trim` on the character list. -/
def jsTrimL (cs : List Char) : List Char :=
  dropTrailing jsWsChar (cs.dropWhile jsWsChar)

/-- JS `String.prototype.trim`. -/
def jsTrim (s : String) : String :=
  String.mk (jsTrimL s.data)

/-- Split on `/\r?\n/` (JS `split`): a lone CR is not a separator. -/
def splitNewlinesL : List Char → List (List Char)
  | [] => [[]]
  | '\r' :: '\n' :: rest => [] :: splitNewlinesL rest
  | '\n' :: rest => [] :: splitNewlinesL rest
  | c :: rest =>
      match splitNewlinesL rest with
      | [] => [[c]]
      | l :: ls => (c :: l) :: ls

/-- JS `text.split(/\r?\n/)`. -/
def splitNewlines (s : String) : List String :=
  (splitNewlinesL s.data).map String.mk

/-- Split on runs of `\s+` (JS `split(/\s+/)` on a trimmed string):
collect maximal runs of non-whitespace characters. -/
def splitWsL : List Char → List (List Char)
  | [] => []
  | c :: rest =>
      if jsWsChar c then splitWsL rest
      else
        match splitWsL rest with
        | [] => [[c]]
        | l :: ls =>
            match rest with
            | [] => [[c]]
            | r :: _ => if jsWsChar r then [c] :: l :: ls else (c :: l) :: ls

/-- JS `paragraph.split(/\s+/)` for a trimmed, nonempty paragraph
(word list; leading/trailing whitespace already removed by `trim`). -/
def splitWs (s : String) : List String :=
  (splitWsL s.data).map String.mk

/-! ## Decimal digits (executable, fuel-based so the kernel can evaluate) -/

/-- The decimal digit character for `d < 10`. -/
def digitChar (d : Nat) : Char := Char.ofNat (48 + d)

/-- Fueled most-significant-first decimal digit expansion. -/
def natDigitsAux : Nat → Nat → List Nat → List Nat
  | 0, _, acc => acc
  | f + 1, n, acc => if n < 10 then n :: acc else natDigitsAux f (n / 10) (n % 10 :: acc)

/-- Decimal digits of `n`, most significant first (`natDigits 0 = [0]`). -/
def natDigits (n : Nat) : List Nat := natDigitsAux (n + 1) n []

/-- Value of a most-significant-first digit list. -/
def digitsVal (ds : List Nat) : Nat := ds.foldl (fun a d => a * 10 + d) 0

/-- Decimal character representation of a natural number. -/
def natChars (n : Nat) : List Char := (natDigits n).map digitChar

theorem natDigitsAux_spec : ∀ n f acc, n < f → natDigitsAux f n acc = natDigits n ++ acc := by
  intro n
  induction n using Nat.strong_induction_on with
  | _ n ih =>
    intro f acc hf
    match f, hf with
    | f + 1, _ =>
      by_cases h10 : n < 10
      · simp [natDigitsAux, natDigits, h10]
      · have hdiv : n / 10 < n := Nat.div_lt_self (by omega) (by omega)
        have h1 : natDigitsAux (f + 1) n acc = natDigitsAux f (n / 10) (n % 10 :: acc) := by
          simp [natDigitsAux, h10]
        have h2 : natDigits n = natDigits (n / 10) ++ [n % 10] := by
          show natDigitsAux (n + 1) n [] = _
          have : natDigitsAux (n + 1) n [] = natDigitsAux n (n / 10) (n % 10 :: []) := by
            simp [natDigitsAux, h10]
          rw [this, ih (n / 10) hdiv n (n % 10 :: []) (by omega)]
        rw [h1, ih (n / 10) hdiv f (n % 10 :: acc) (by omega), h2, List.append_assoc]
        rfl

theorem natDigits_ne_nil (n : Nat) : natDigits n ≠ [] := by
  induction n using Nat.strong_induction_on with
  | _ n ih =>
    by_cases h10 : n < 10
    · simp [natDigits, natDigitsAux, h10]
    · have hdiv : n / 10 < n := Nat.div_lt_self (by omega) (by omega)
      have h2 : natDigits n = natDigits (n / 10) ++ [n % 10] := by
        show natDigitsAux (n + 1) n [] = _
        have h : natDigitsAux (n + 1) n [] = natDigitsAux n (n / 10) (n % 10 :: []) := by
          simp [natDigits, natDigitsAux, h10]
        rw [h, natDigitsAux_spec (n / 10) n (n % 10 :: []) (by omega)]
      rw [h2]
      simp

theorem digitsVal_append_one (L : List Nat) (d : Nat) :
    digitsVal (L ++ [d]) = digitsVal L * 10 + d := by
  simp [digitsVal, List.foldl_append]

theorem digitsVal_natDigits (n : Nat) : digitsVal (natDigits n) = n := by
  induction n using Nat.strong_induction_on with
  | _ n ih =>
    by_cases h10 : n < 10
    · simp [natDigits, natDigitsAux, h10, digitsVal]
    · have hdiv : n / 10 < n := Nat.div_lt_self (by omega) (by omega)
      have h2 : natDigits n = natDigits (n / 10) ++ [n % 10] := by
        show natDigitsAux (n + 1) n [] = _
        have h : natDigitsAux (n + 1) n [] = natDigitsAux n (n / 10) (n % 10 :: []) := by
          simp [natDigits, natDigitsAux, h10]
        rw [h, natDigitsAux_spec (n / 10) n (n % 10 :: []) (by omega)]
      rw [h2, digitsVal_append_one, ih (n / 10) hdiv]
      omega

theorem natDigits_lt_ten (n : Nat) : ∀ d ∈ natDigits n, d < 10 := by
  induction n using Nat.strong_induction_on with
  | _ n ih =>
    by_cases h10 : n < 10
    · intro d hd
      simp [natDigits, natDigitsAux, h10] at hd
      omega
    · have hdiv : n / 10 < n := Nat.div_lt_self (by omega) (by omega)
      have h2 : natDigits n = natDigits (n / 10) ++ [n % 10] := by
        show natDigitsAux (n + 1) n [] = _
        have h : natDigitsAux (n + 1) n [] = natDigitsAux n (n / 10) (n % 10 :: []) := by
          simp [natDigits, natDigitsAux, h10]
        rw [h, natDigitsAux_spec (n / 10) n (n % 10 :: []) (by omega)]
      rw [h2]
      intro d hd
      rcases List.mem_append.1 hd with h | h
      · exact ih (n / 10) hdiv d h
      · simp at h
        omega

theorem natDigits_head_ne_zero (n : Nat) (hn : n ≠ 0) :
    ∀ d, (natDigits n).head? = some d → d ≠ 0 := by
  induction n using Nat.strong_induction_on with
  | _ n ih =>
    by_cases h10 : n < 10
    · intro d hd
      simp [natDigits, natDigitsAux, h10] at hd
      omega
    · have hdiv : n / 10 < n := Nat.div_lt_self (by omega) (by omega)
      have h2 : natDigits n = natDigits (n / 10) ++ [n % 10] := by
        show natDigitsAux (n + 1) n [] = _
        have h : natDigitsAux (n + 1) n [] = natDigitsAux n (n / 10) (n % 10 :: []) := by
          simp [natDigits, natDigitsAux, h10]
        rw [h, natDigitsAux_spec (n / 10) n (n % 10 :: []) (by omega)]
      intro d hd
      rw [h2] at hd
      rcases hne : natDigits (n / 10) with _ | ⟨x, xs⟩
      · exact absurd hne (natDigits_ne_nil _)
      · rw [hne] at hd
        simp at hd
        exact ih (n / 10) hdiv (by omega) d (by rw [hne]; simpa using hd)

/-! ## Exact decimal numbers (`m * 10 ^ -e`), the number fragment used here -/

/-- An exact decimal: value `m / 10 ^ e`. The JSON numbers exercised by the
claims are exactly representable; canonical form has no trailing fractional
zeros (see `JDec.norm`). -/
structure JDec where
  m : Int
  e : Nat
deriving DecidableEq

/-- Strip trailing zero fraction digits (JS doubles print canonically). -/
def normAux : Int → Nat → Int × Nat
  | m, 0 => (m, 0)
  | m, e + 1 => if m % 10 = 0 then normAux (m / 10) e else (m, e + 1)

/-- Canonical form of a decimal. -/
def JDec.norm (d : JDec) : JDec :=
  ⟨(normAux d.m d.e).1, (normAux d.m d.e).2⟩

/-- Raw decimal character representation of `d` (sign, integer part,
fraction padded to `e` digits); matches JS number printing on canonical
decimals. -/
def decCharsRaw (d : JDec) : List Char :=
  let a := d.m.natAbs
  let sign : List Char := if d.m < 0 then ['-'] else []
  if d.e = 0 then sign ++ natChars a
  else
    let fd := natDigits (a % 10 ^ d.e)
    let fracDs := List.replicate (d.e - fd.length) 0 ++ fd
    sign ++ natChars (a / 10 ^ d.e) ++ '.' :: fracDs.map digitChar

/-- JS `Number.prototype.toString` (via the canonical form). -/
def decToString (d : JDec) : String := String.mk (decCharsRaw d.norm)

/-- Insert `,` after every third digit, operating on a reversed digit list. -/
def group3Aux : List Char → List Char
  | d1 :: d2 :: d3 :: r :: rest => d1 :: d2 :: d3 :: ',' :: group3Aux (r :: rest)
  | l => l

/-- Decimal representation of a natural with `en-US` thousands separators. -/
def groupedNatChars (n : Nat) : List Char :=
  (group3Aux (natChars n).reverse).reverse

/-- JS `Number.prototype.toLocaleString()` (`en-US`): grouped integer part,
canonical fraction digits. -/
def decToLocaleString (d : JDec) : String :=
  let c := d.norm
  let a := c.m.natAbs
  let sign : List Char := if c.m < 0 then ['-'] else []
  if c.e = 0 then String.mk (sign ++ groupedNatChars a)
  else
    let fd := natDigits (a % 10 ^ c.e)
    let fracDs := List.replicate (c.e - fd.length) 0 ++ fd
    String.mk (sign ++ groupedNatChars (a / 10 ^ c.e) ++ '.' :: fracDs.map digitChar)

/-! ## JSON values -/

mutual
/-- A JSON value as produced by `JSON.parse` / `await request.json()`. -/
inductive JSValue where
  | jnull
  | jbool (b : Bool)
  | jnum (d : JDec)
  | jstr (s : String)
  | jarr (elems : JSList)
  | jobj (fields : JMembers)
/-- A list of JSON values (array elements). -/
inductive JSList where
  | nil
  | cons (hd : JSValue) (tl : JSList)
/-- Ordered fields of a JSON object. -/
inductive JMembers where
  | nil
  | cons (k : String) (v : JSValue) (tl : JMembers)
end

def JSList.toList : JSList → List JSValue
  | .nil => []
  | .cons x tl => x :: tl.toList

def JSList.ofList : List JSValue → JSList
  | [] => .nil
  | x :: xs => .cons x (JSList.ofList xs)

def JSList.length : JSList → Nat
  | .nil => 0
  | .cons _ tl => tl.length + 1

/-- First-occurrence field lookup (JS property access on these objects). -/
def jLookup : JMembers → String → Option JSValue
  | .nil, _ => none
  | .cons k v tl, key => if k = key then some v else jLookup tl key

/-- JS `"key" in obj`. -/
def JMembers.hasKey (ms : JMembers) (k : String) : Bool :=
  (jLookup ms k).isSome

/-- Property assignment during `JSON.parse` object construction: a repeated
key overwrites the value at the first occurrence, otherwise appends. -/
def jsInsert : JMembers → String → JSValue → JMembers
  | .nil, k, v => .cons k v .nil
  | .cons k0 v0 tl, k, v =>
      if k0 = k then .cons k0 v tl else .cons k0 v0 (jsInsert tl k v)

def JMembers.append : JMembers → JMembers → JMembers
  | .nil, ms => ms
  | .cons k v tl, ms => .cons k v (tl.append ms)

/-- JS truthiness of a JSON value. -/
def jsTruthy : JSValue → Bool
  | .jnull => false
  | .jbool b => b
  | .jnum d => d.m != 0
  | .jstr s => s != ""
  | .jarr _ => true
  | .jobj _ => true

/-- JS truthiness where `none` stands for `undefined`. -/
def jsTruthyO : Option JSValue → Bool
  | none => false
  | some v => jsTruthy v

mutual
/-- JS `String(v)` on a JSON value. -/
def jsToString : JSValue → String
  | .jnull => "null"
  | .jbool b => if b then "true" else "false"
  | .jnum d => decToString d
  | .jstr s => s
  | .jarr l => String.mk (jsArrToStringL l)
  | .jobj _ => "[object Object]"
/-- JS `Array.prototype.toString` body: comma-join, `null` elements empty. -/
def jsArrToStringL : JSList → List Char
  | .nil => []
  | .cons x .nil => (jsElemToString x).data
  | .cons x (.cons y tl) => (jsElemToString x).data ++ ',' :: jsArrToStringL (.cons y tl)
/-- One array element under `Array.prototype.toString`. -/
def jsElemToString : JSValue → String
  | .jnull => ""
  | v => jsToString v
end

/-! ## `JSON.stringify` -/

/-- Lowercase hexadecimal digit character. -/
def hexDigitChar (n : Nat) : Char :=
  if n < 10 then digitChar n else Char.ofNat (87 + n)

/-- How `JSON.stringify` escapes one character inside a string literal. -/
def escapeChar (c : Char) : List Char :=
  if c = '"' then ['\\', '"']
  else if c = '\\' then ['\\', '\\']
  else if c = '\n' then ['\\', 'n']
  else if c = '\r' then ['\\', 'r']
  else if c = '\t' then ['\\', 't']
  else if c = '\x08' then ['\\', 'b']
  else if c = '\x0c' then ['\\', 'f']
  else if c.toNat < 32 then
    '\\' :: 'u' :: '0' :: '0' ::
      hexDigitChar (c.toNat / 16) :: [hexDigitChar (c.toNat % 16)]
  else [c]

def escapeChars (cs : List Char) : List Char :=
  cs.foldr (fun c acc => escapeChar c ++ acc) []

/-- A JSON string literal for `s`. -/
def strLit (s : String) : List Char :=
  '"' :: escapeChars s.data ++ ['"']

mutual
/-- Compact `JSON.stringify` of a value, as characters. -/
def printChars : JSValue → List Char
  | .jnull => ['n', 'u', 'l', 'l']
  | .jbool true => ['t', 'r', 'u', 'e']
  | .jbool false => ['f', 'a', 'l', 's', 'e']
  | .jnum d => decCharsRaw d.norm
  | .jstr s => strLit s
  | .jarr l => '[' :: printList l ++ [']']
  | .jobj ms => '{' :: printMembers ms ++ ['}']
/-- Comma-joined array elements. -/
def printList : JSList → List Char
  | .nil => []
  | .cons x .nil => printChars x
  | .cons x (.cons y tl) => printChars x ++ ',' :: printList (.cons y tl)
/-- Comma-joined `"key":value` members. -/
def printMembers : JMembers → List Char
  | .nil => []
  | .cons k v .nil => strLit k ++ ':' :: printChars v
  | .cons k v (.cons k2 v2 tl) =>
      strLit k ++ ':' :: printChars v ++ ',' :: printMembers (.cons k2 v2 tl)
end

/-- `JSON.stringify(v)` (compact form, no spacing argument). -/
def jsonStringify (v : JSValue) : String := String.mk (printChars v)

mutual
/-- `JSON.stringify(v, null, 2)`, as characters, at indent `ind`. -/
def prettyChars : Nat → JSValue → List Char
  | _, .jnull => ['n', 'u', 'l', 'l']
  | _, .jbool true => ['t', 'r', 'u', 'e']
  | _, .jbool false => ['f', 'a', 'l', 's', 'e']
  | _, .jnum d => decCharsRaw d.norm
  | _, .jstr s => strLit s
  | _, .jarr .nil => ['[', ']']
  | ind, .jarr (.cons x tl) =>
      '[' :: '\n' :: prettyList (ind + 2) (.cons x tl) ++
        '\n' :: List.replicate ind ' ' ++ [']']
  | _, .jobj .nil => ['{', '}']
  | ind, .jobj (.cons k v tl) =>
      '{' :: '\n' :: prettyMembers (ind + 2) (.cons k v tl) ++
        '\n' :: List.replicate ind ' ' ++ ['}']
/-- Indented, `,\n`-joined pretty array elements. -/
def prettyList : Nat → JSList → List Char
  | _, .nil => []
  | ind, .cons x .nil => List.replicate ind ' ' ++ prettyChars ind x
  | ind, .cons x (.cons y tl) =>
      List.replicate ind ' ' ++ prettyChars ind x ++
        ',' :: '\n' :: prettyList ind (.cons y tl)
/-- Indented, `,\n`-joined pretty object members (`"key": value`). -/
def prettyMembers : Nat → JMembers → List Char
  | _, .nil => []
  | ind, .cons k v .nil =>
      List.replicate ind ' ' ++ strLit k ++ ':' :: ' ' :: prettyChars ind v
  | ind, .cons k v (.cons k2 v2 tl) =>
      List.replicate ind ' ' ++ strLit k ++ ':' :: ' ' :: prettyChars ind v ++
        ',' :: '\n' :: prettyMembers ind (.cons k2 v2 tl)
end

/-- `JSON.stringify(v, null, 2)`. -/
def jsonStringifyPretty (v : JSValue) : String := String.mk (prettyChars 0 v)

mutual
/-- Well-formedness: every number canonical, every object duplicate-free
(exactly the values `JSON.parse` on a real engine can produce). -/
def jsWF : JSValue → Bool
  | .jnull => true
  | .jbool _ => true
  | .jnum d => d.norm == d
  | .jstr _ => true
  | .jarr l => jsWFList l
  | .jobj ms => jsWFMembers ms
/-- `jsWF` on array elements. -/
def jsWFList : JSList → Bool
  | .nil => true
  | .cons x tl => jsWF x && jsWFList tl
/-- `jsWF` on object members, including key distinctness. -/
def jsWFMembers : JMembers → Bool
  | .nil => true
  | .cons k v tl => !(JMembers.hasKey tl k) && jsWF v && jsWFMembers tl
end

/-! ## `JSON.parse`: a character-level, fuel-indexed parser -/

/-- Skip JSON grammar whitespace. -/
def skipWs : List Char → List Char
  | [] => []
  | c :: cs => if jsonWsChar c then skipWs cs else c :: cs

/-- Hexadecimal digit value. -/
def hexVal (c : Char) : Option Nat :=
  if '0' ≤ c ∧ c ≤ '9' then some (c.toNat - 48)
  else if 'a' ≤ c ∧ c ≤ 'f' then some (c.toNat - 87)
  else if 'A' ≤ c ∧ c ≤ 'F' then some (c.toNat - 55)
  else none

/-- Four hex digits of a `\uXXXX` escape. -/
def parseHex4 : List Char → Option (Nat × List Char)
  | c1 :: c2 :: c3 :: c4 :: rest =>
      match hexVal c1, hexVal c2, hexVal c3, hexVal c4 with
      | some a, some b, some c, some d => some (((a * 16 + b) * 16 + c) * 16 + d, rest)
      | _, _, _, _ => none
  | _ => none

/-- Decode a JSON string literal body after the opening quote: content chars
and the remainder after the closing quote. Handles the escape set of
`JSON.parse`; surrogate pairs combine, stray surrogates map to U+FFFD (the
one spot where JS WTF-16 strings exceed Unicode scalar values). -/
def parseStringBody : Nat → List Char → Option (List Char × List Char)
  | 0, _ => none
  | f + 1, cs =>
    match cs with
    | [] => none
    | c :: rest =>
      if c = '"' then some ([], rest)
      else if c = '\\' then
        match rest with
        | [] => none
        | e :: r1 =>
          if e = '"' ∨ e = '\\' ∨ e = '/' then
            (parseStringBody f r1).map (fun p => (e :: p.1, p.2))
          else if e = 'b' then (parseStringBody f r1).map (fun p => ('\x08' :: p.1, p.2))
          else if e = 'f' then (parseStringBody f r1).map (fun p => ('\x0c' :: p.1, p.2))
          else if e = 'n' then (parseStringBody f r1).map (fun p => ('\n' :: p.1, p.2))
          else if e = 'r' then (parseStringBody f r1).map (fun p => ('\r' :: p.1, p.2))
          else if e = 't' then (parseStringBody f r1).map (fun p => ('\t' :: p.1, p.2))
          else if e = 'u' then
            match parseHex4 r1 with
            | none => none
            | some (n, r2) =>
              if 0xd800 ≤ n ∧ n < 0xdc00 then
                match r2 with
                | '\\' :: 'u' :: r3 =>
                  match parseHex4 r3 with
                  | some (m, r4) =>
                    if 0xdc00 ≤ m ∧ m < 0xe000 then
                      (parseStringBody f r4).map
                        (fun p => (Char.ofNat (0x10000 + (n - 0xd800) * 0x400 + (m - 0xdc00)) :: p.1, p.2))
                    else (parseStringBody f r2).map (fun p => ('\uFFFD' :: p.1, p.2))
                  | none => (parseStringBody f r2).map (fun p => ('\uFFFD' :: p.1, p.2))
                | _ => (parseStringBody f r2).map (fun p => ('\uFFFD' :: p.1, p.2))
              else if 0xdc00 ≤ n ∧ n < 0xe000 then
                (parseStringBody f r2).map (fun p => ('\uFFFD' :: p.1, p.2))
              else (parseStringBody f r2).map (fun p => (Char.ofNat n :: p.1, p.2))
          else none
      else if c.toNat < 32 then none
      else (parseStringBody f rest).map (fun p => (c :: p.1, p.2))

/-- Take a maximal run of leading decimal digits. -/
def takeDigits : List Char → List Nat × List Char
  | [] => ([], [])
  | c :: cs =>
      if c.isDigit then
        let p := takeDigits cs
        ((c.toNat - 48) :: p.1, p.2)
      else ([], c :: cs)

/-- Exponent part of a JSON number (input positioned after mantissa). -/
def parseNumberExp (neg : Bool) (m0 e0 : Nat) (cs : List Char) :
    Option (JDec × List Char) :=
  let mk : Int := if neg then -(m0 : Int) else (m0 : Int)
  match cs with
  | c :: r =>
    if c = 'e' ∨ c = 'E' then
      let sp : Int × List Char :=
        match r with
        | '+' :: rr => (1, rr)
        | '-' :: rr => (-1, rr)
        | _ => (1, r)
      match takeDigits sp.2 with
      | ([], _) => none
      | (ds, r3) =>
        let t : Int := sp.1 * (digitsVal ds : Int) - (e0 : Int)
        if 0 ≤ t then some (⟨mk * ((10 : Int) ^ t.toNat), 0⟩, r3)
        else some (⟨mk, (-t).toNat⟩, r3)
    else some (⟨mk, e0⟩, cs)
  | [] => some (⟨mk, e0⟩, [])

/-- Fraction part of a JSON number (input positioned after the integer part). -/
def parseNumberFrac (neg : Bool) (ip : Nat) (cs : List Char) :
    Option (JDec × List Char) :=
  match cs with
  | c :: r =>
    if c = '.' then
      match takeDigits r with
      | ([], _) => none
      | (ds, r2) => parseNumberExp neg (ip * 10 ^ ds.length + digitsVal ds) ds.length r2
    else parseNumberExp neg ip 0 (c :: r)
  | [] => parseNumberExp neg ip 0 []

/-- A JSON number: optional minus, `0` or a nonzero-led digit run, optional
fraction, optional exponent. -/
def parseNumber (cs : List Char) : Option (JDec × List Char) :=
  let sp : Bool × List Char :=
    match cs with
    | c :: r => if c = '-' then (true, r) else (false, c :: r)
    | [] => (false, [])
  match sp.2 with
  | [] => none
  | c :: r =>
    if c = '0' then parseNumberFrac sp.1 0 r
    else if c.isDigit then
      let p := takeDigits (c :: r)
      parseNumberFrac sp.1 (digitsVal p.1) p.2
    else none

mutual
/-- One JSON value at the front of `cs` (leading whitespace already skipped). -/
def parseValue : Nat → List Char → Option (JSValue × List Char)
  | 0, _ => none
  | f + 1, cs =>
    match cs with
    | [] => none
    | c :: rest =>
      if c = '"' then
        match parseStringBody (rest.length + 1) rest with
        | some (content, r) => some (.jstr (String.mk content), r)
        | none => none
      else if c = '{' then parseObjectBody f (skipWs rest)
      else if c = '[' then parseArrayBody f (skipWs rest)
      else if c = 't' then
        match rest with
        | 'r' :: 'u' :: 'e' :: r => some (.jbool true, r)
        | _ => none
      else if c = 'f' then
        match rest with
        | 'a' :: 'l' :: 's' :: 'e' :: r => some (.jbool false, r)
        | _ => none
      else if c = 'n' then
        match rest with
        | 'u' :: 'l' :: 'l' :: r => some (.jnull, r)
        | _ => none
      else
        match parseNumber cs with
        | some (d, r) => some (.jnum d, r)
        | none => none
/-- Object body after `{` and whitespace. -/
def parseObjectBody : Nat → List Char → Option (JSValue × List Char)
  | 0, _ => none
  | f + 1, cs =>
    match cs with
    | '}' :: r => some (.jobj .nil, r)
    | _ => parseMembersLoop f cs .nil
/-- One or more `"key": value` members, building the object by successive
property assignment (`jsInsert`). -/
def parseMembersLoop : Nat → List Char → JMembers → Option (JSValue × List Char)
  | 0, _, _ => none
  | f + 1, cs, acc =>
    match cs with
    | '"' :: rest =>
      match parseStringBody (rest.length + 1) rest with
      | some (kcs, r1) =>
        match skipWs r1 with
        | ':' :: r2 =>
          match parseValue f (skipWs r2) with
          | some (v, r3) =>
            match skipWs r3 with
            | ',' :: r4 => parseMembersLoop f (skipWs r4) (jsInsert acc (String.mk kcs) v)
            | '}' :: r4 => some (.jobj (jsInsert acc (String.mk kcs) v), r4)
            | _ => none
          | none => none
        | _ => none
      | none => none
    | _ => none
/-- Array body after `[` and whitespace. -/
def parseArrayBody : Nat → List Char → Option (JSValue × List Char)
  | 0, _ => none
  | f + 1, cs =>
    match cs with
    | ']' :: r => some (.jarr .nil, r)
    | _ =>
      match parseElemsLoop f cs with
      | some (vs, r) => some (.jarr vs, r)
      | none => none
/-- One or more comma-separated array elements. -/
def parseElemsLoop : Nat → List Char → Option (JSList × List Char)
  | 0, _ => none
  | f + 1, cs =>
    match parseValue f cs with
    | some (v, r) =>
      match skipWs r with
      | ',' :: r2 =>
        match parseElemsLoop f (skipWs r2) with
        | some (vs, r3) => some (.cons v vs, r3)
        | none => none
      | ']' :: r2 => some (.cons v .nil, r2)
      | _ => none
    | none => none
end

/-- `JSON.parse(s)`: `none` models a thrown `SyntaxError`. The fuel
`3 * s.length + 3` dominates the parser's recursion depth (each three
levels of mutual recursion consume at least one input character). -/
def jsonParse (s : String) : Option JSValue :=
  match parseValue (3 * s.length + 3) (skipWs s.data) with
  | some (v, rest) => if skipWs rest = [] then some v else none
  | none => none

/-! ## Markdown fence extraction

Both routes match the first fenced block, `parseJsonFromString` with
regex `/ticks(?:json)?\s*([\s\S]*?)ticks/i` and `parseModelJson` with the
same pattern plus a trailing `\s*` before the closing fence. After the
`.trim()` both call sites apply, the two captures coincide, so one
extraction function models both. Backtracking to a later opening fence
can never succeed when the first attempt fails (failure means no closing
triple exists after it), so a single first-match attempt is exact. -/

/-- Split at the first triple-backtick: characters before it and after it. -/
def splitAtFence : List Char → Option (List Char × List Char)
  | '`' :: '`' :: '`' :: rest => some ([], rest)
  | c :: rest => (splitAtFence rest).map (fun p => (c :: p.1, p.2))
  | [] => none

/-- Consume an optional case-insensitive `json` language tag. -/
def skipJsonTag : List Char → List Char
  | c1 :: c2 :: c3 :: c4 :: rest =>
      if c1.toLower = 'j' ∧ c2.toLower = 's' ∧ c3.toLower = 'o' ∧ c4.toLower = 'n' then rest
      else c1 :: c2 :: c3 :: c4 :: rest
  | cs => cs

/-- The regex capture: text strictly between the first fence pair, after the
optional tag and greedy `\s*`. -/
def fenceExtract (s : String) : Option String :=
  match splitAtFence s.data with
  | none => none
  | some (_, afterOpen) =>
    match splitAtFence ((skipJsonTag afterOpen).dropWhile jsWsChar) with
    | some (cap, _) => some (String.mk cap)
    | none => none

/-- JS `s.startsWith(q) && s.endsWith(q)` for double or single quote. -/
def isQuoteWrapped (s : String) : Bool :=
  (s.data.head? == some '"' && s.data.getLast? == some '"')
    || (s.data.head? == some (Char.ofNat 39) && s.data.getLast? == some (Char.ofNat 39))

/-! ## `parseJsonFromString` (generate-pdf route, lines 55-95) -/

/-- Fuel-indexed translation of `parseJsonFromString`. The JS recursion on
the decoded inner string is bounded by the string length (decoding a quoted
literal always shortens it), so fuel `length + 1` is never exhausted. -/
def parseJsonFromStringF : Nat → String → Option JSValue
  | 0, _ => none
  | f + 1, input =>
    let s := jsTrim input
    -- step 1: if quote-wrapped, decode once; a decoded string recurses,
    -- and on recursion failure the decoded string replaces `input`
    let step1 : Option JSValue × String :=
      if isQuoteWrapped s then
        match jsonParse s with
        | some (.jstr decoded) =>
          match parseJsonFromStringF f decoded with
          | some v => (some v, input)
          | none => (none, decoded)
        | _ => (none, input)
      else (none, input)
    match step1.1 with
    | some v => some v
    | none =>
      let text := jsTrim step1.2
      -- step 2: candidate is the fenced capture if present, else the text
      let candidate :=
        match fenceExtract text with
        | some cap => jsTrim cap
        | none => text
      -- step 3: parse candidate; step 4: fall back to parsing `text`
      match jsonParse candidate with
      | some v => some v
      | none => jsonParse text

/-- `parseJsonFromString` (undefined = `none`). -/
def parseJsonFromString (input : String) : Option JSValue :=
  parseJsonFromStringF (input.length + 1) input

/-! ## `parseModelJson` (recommendations route, lines 18-79)

The JS function signals failure by returning `null`, which is
indistinguishable from successfully parsing the JSON text `"null"`; each
stage therefore maps a parsed `null` to the failure result, and `some r`
below means "the JS function returns here with `r`". -/

/-- Stage 2: `return JSON.parse(trimmed)` under try/catch. -/
def pmjDirect (trimmed : String) : Option (Option JSValue) :=
  match jsonParse trimmed with
  | some .jnull => some none
  | some v => some (some v)
  | none => none

/-- Stage 3: first fenced block, guarded by truthiness of the raw capture
(whose trailing-`\s*`-stripped form is `jsTrim cap`). -/
def pmjFence (trimmed : String) : Option (Option JSValue) :=
  match fenceExtract trimmed with
  | some cap =>
    if jsTrim cap = "" then none
    else
      match jsonParse (jsTrim cap) with
      | some .jnull => some none
      | some v => some (some v)
      | none => none
  | none => none

/-- Index of the first occurrence of `c`. -/
def indexOfChar (c : Char) : List Char → Option Nat
  | [] => none
  | x :: xs => if x = c then some 0 else (indexOfChar c xs).map (· + 1)

/-- Stage 4: substring from the earliest `\x7b` or `[`. -/
def pmjBracket (trimmed : String) : Option (Option JSValue) :=
  let firstObj := indexOfChar '{' trimmed.data
  let firstArr := indexOfChar '[' trimmed.data
  let start : Option Nat :=
    match firstObj, firstArr with
    | none, fa => fa
    | some fo, none => some fo
    | some fo, some fa => some (min fo fa)
  match start with
  | none => none
  | some st =>
    match jsonParse (jsTrim (String.mk (trimmed.data.drop st))) with
    | some .jnull => some none
    | some v => some (some v)
    | none => none

/-- Fuel-indexed translation of `parseModelJson`. -/
def parseModelJsonF : Nat → String → Option JSValue
  | 0, _ => none
  | f + 1, text =>
    if text = "" then none
    else
      let trimmed := jsTrim text
      -- step 1: double-encoded: decode once, recurse; on failure the JS
      -- `return parseModelJson(String(decoded))` recomputes the same `none`
      let step1 : Option (Option JSValue) :=
        if isQuoteWrapped trimmed then
          match jsonParse trimmed with
          | some (.jstr decoded) =>
            some (match parseModelJsonF f decoded with
                  | some v => some v
                  | none => parseModelJsonF f decoded)
          | _ => none
        else none
      match step1 with
      | some r => r
      | none =>
        match pmjDirect trimmed with
        | some r => r
        | none =>
          match pmjFence trimmed with
          | some r => r
          | none =>
            match pmjBracket trimmed with
            | some r => r
            | none => none

/-- `parseModelJson` (JS `null` = `none`). -/
def parseModelJson (text : String) : Option JSValue :=
  parseModelJsonF (text.length + 1) text

/-- `unwrapRecommendations` (recommendations route, lines 81-87): only a
non-null object with the key unwraps; `"recommendations" in array` is false
for the string key, so arrays pass through. -/
def unwrapRecommendations (parsed : JSValue) : JSValue :=
  match parsed with
  | .jobj ms =>
    match jLookup ms "recommendations" with
    | some r => r
    | none => .jobj ms
  | _ => parsed

/-- The `recommendations` field of the recommendations route response:
`parsed !== null ? unwrapRecommendations(parsed) : \x7b text, raw: true \x7d`
(line 114-117); the external `usage` field is out of scope. -/
def routeRecommendations (parsed : Option JSValue) (rawText : String) : JSValue :=
  match parsed with
  | some p => unwrapRecommendations p
  | none => .jobj (.cons "text" (.jstr rawText) (.cons "raw" (.jbool true) .nil))

/-! ## `normalizeInput` (generate-pdf route, lines 102-165) -/

/-- Result of normalization: at most one of a structured document and a
raw-text fallback, by construction of `normalizeInput`. -/
structure NormalizedResult where
  doc : Option JSValue
  rawText : Option String

/-- Lines 146-164: top-level `\x7b text \x7d` shape, then the
stringify-and-reparse attempt, then the unknown-shape fallback. The
`JSON.stringify` calls are total on JSON values, so the try/catch around
the first one never fires in the model. -/
def normalizeObjFallback (ms : JMembers) : NormalizedResult :=
  match jLookup ms "text" with
  | some (.jstr ts) =>
    match parseJsonFromString ts with
    | some parsed => ⟨some parsed, none⟩
    | none => ⟨none, some ts⟩
  | _ =>
    match parseJsonFromString (jsonStringify (.jobj ms)) with
    | some parsed => ⟨some parsed, none⟩
    | none => ⟨none, some (jsonStringifyPretty (.jobj ms))⟩

/-- `normalizeInput`, branch for branch. The scalar case (`null`, boolean,
number) falls through every guard to line 164. -/
def normalizeInput : JSValue → NormalizedResult
  | .jstr s =>
    match parseJsonFromString s with
    | some parsed => ⟨some parsed, none⟩
    | none => ⟨none, some s⟩
  | .jarr l => ⟨some (.jarr l), none⟩
  | .jobj ms =>
    (match jLookup ms "recommendations" with
     | some (.jstr rs) =>
       match parseJsonFromString rs with
       | some parsed => ⟨some parsed, none⟩
       | none => ⟨none, some rs⟩
     | some (.jobj rms) =>
       (match jLookup rms "text" with
        | some (.jstr ts) =>
          match parseJsonFromString ts with
          | some parsed => ⟨some parsed, none⟩
          | none => ⟨none, some ts⟩
        | _ => ⟨some (.jobj rms), none⟩)
     | some (.jarr _) => ⟨some (.jobj ms), none⟩
     | _ => normalizeObjFallback ms)
  | v => ⟨none, some (jsonStringifyPretty v)⟩

/-! ## `coerceNumber` and `formatMoney` (generate-pdf route, lines 32-47) -/

/-- The exponent tail of a JS numeric literal (`Number`), requiring full
consumption of the input. -/
def numLitExp (neg : Bool) (m0 e0 : Nat) (cs : List Char) : Option JDec :=
  let mk : Int := if neg then -(m0 : Int) else (m0 : Int)
  match cs with
  | [] => some ⟨mk, e0⟩
  | c :: r =>
    if c = 'e' ∨ c = 'E' then
      let sp : Int × List Char :=
        match r with
        | '+' :: rr => (1, rr)
        | '-' :: rr => (-1, rr)
        | _ => (1, r)
      match takeDigits sp.2 with
      | ([], _) => none
      | (ds, r3) =>
        if r3 = [] then
          let t : Int := sp.1 * (digitsVal ds : Int) - (e0 : Int)
          if 0 ≤ t then some ⟨mk * ((10 : Int) ^ t.toNat), 0⟩
          else some ⟨mk, (-t).toNat⟩
        else none
    else none

/-- A full JS decimal numeric literal (`digits[.digits]`, `.digits`, optional
sign and exponent). Hex/`Infinity` forms are outside the fragment the routes
exercise and map to NaN here. -/
def parseNumericLit (cs : List Char) : Option JDec :=
  let sp : Bool × List Char :=
    match cs with
    | '+' :: r => (false, r)
    | '-' :: r => (true, r)
    | _ => (false, cs)
  match takeDigits sp.2 with
  | ([], rest) =>
    match rest with
    | '.' :: r2 =>
      match takeDigits r2 with
      | ([], _) => none
      | (ds, r3) => numLitExp sp.1 (digitsVal ds) ds.length r3
    | _ => none
  | (ids, rest) =>
    match rest with
    | '.' :: r2 =>
      let p := takeDigits r2
      numLitExp sp.1 (digitsVal ids * 10 ^ p.1.length + digitsVal p.1) p.1.length p.2
    | _ => numLitExp sp.1 (digitsVal ids) 0 rest

/-- JS `Number(s)`: whitespace-only is `0`; `none` models NaN. -/
def jsToNumber (s : String) : Option JDec :=
  let t := jsTrimL s.data
  if t = [] then some ⟨0, 0⟩ else parseNumericLit t

/-- `coerceNumber(val)`: a finite number passes through; a string is
stripped of `$` and `,`, trimmed, and read with `Number`; everything else
(and NaN) is `undefined`. `none` input models `undefined`. -/
def coerceNumber : Option JSValue → Option JDec
  | some (.jnum d) => some d
  | some (.jstr s) =>
      jsToNumber (jsTrim (String.mk (s.data.filter (fun c => !(c = '$' || c = ',')))))
  | _ => none

/-- `formatMoney(val)`: dollar sign plus `toLocaleString`. -/
def formatMoney (val : Option JSValue) : Option String :=
  match coerceNumber val with
  | none => none
  | some n => some ("$" ++ decToLocaleString n)

/-! ## The PDF renderer (generate-pdf route POST handler, lines 167-529)

Vertical geometry is exact in units of 1/25 pt (`SC`), making the source's
1.2, 0.4 and 1.6 factors integral. Font sizes stay in points, matching the
`size` argument of `page.drawText`. Text measurement
(`font.widthOfTextAtSize`) lives in the external pdf-lib collaborator and
is abstracted as a width function per font. -/

/-- Scale: units per PDF point. -/
def SC : Int := 25

/-- Page height, 792 pt. -/
def PAGE_H : Int := 792 * SC

/-- Left margin, 50 pt. -/
def pdfMargin : Int := 50 * SC

/-- Bottom margin, 50 pt. -/
def bottomMargin : Int := 50 * SC

/-- Content width, `612 - 2 * 50` pt. -/
def contentWidth : Int := (612 - 2 * 50) * SC

/-- One `page.drawText` call: page number, position, font size (pt), text. -/
structure Op where
  page : Nat
  x : Int
  y : Int
  size : Int
  text : String
deriving DecidableEq

/-- Renderer cursor state: current page, vertical offset, draw calls so far. -/
structure RState where
  page : Nat
  y : Int
  ops : List Op

/-- `let page = pdfDoc.addPage(...); let y = PAGE_H - 50`. -/
def initState : RState := ⟨1, PAGE_H - 50 * SC, []⟩

/-- `newPage()`: fresh page, cursor back to the top margin. -/
def newPage (st : RState) : RState := ⟨st.page + 1, PAGE_H - 50 * SC, st.ops⟩

/-- `ensureSpace(needed)`: page-break when the block no longer fits. -/
def ensureSpace (needed : Int) (st : RState) : RState :=
  if st.y - needed < bottomMargin then newPage st else st

/-- `page.drawText(text, \x7b x, y, size ... \x7d)`. -/
def draw (st : RState) (x size : Int) (text : String) : RState :=
  ⟨st.page, st.y, st.ops ++ [⟨st.page, x, st.y, size, text⟩]⟩

/-- Abstract `font.widthOfTextAtSize` (text, size in pt → width in `SC` units). -/
def WidthFn : Type := String → Int → Int

/-- Flush one wrapped line: `ensureSpace(lineHeight); drawText; y -= lineHeight`. -/
def drawLine (x size lh : Int) (text : String) (st : RState) : RState :=
  let st1 := ensureSpace lh st
  let st2 := draw st1 x size text
  ⟨st2.page, st2.y - lh, st2.ops⟩

/-- The greedy word loop of `drawWrappedText` (source lines 255-276). -/
def wrapLoop (w : WidthFn) (x size maxW lh : Int) :
    List String → String → RState → RState
  | [], line, st => if line = "" then st else drawLine x size lh line st
  | word :: ws, line, st =>
      let testLine := if line = "" then word else line ++ " " ++ word
      if w testLine size > maxW ∧ line ≠ "" then
        wrapLoop w x size maxW lh ws word (drawLine x size lh line st)
      else wrapLoop w x size maxW lh ws testLine st

/-- The paragraph loop of `drawWrappedText` (lines 245-283): blank
paragraphs advance a line, and between paragraphs `0.4 * lineHeight`
(= `size * 12` scaled) of spacing is added. -/
def drawParas (w : WidthFn) (x size maxW lh : Int) :
    List String → RState → RState
  | [], st => st
  | p :: ps, st =>
      let para := jsTrim p
      let st1 :=
        if para = "" then
          let se := ensureSpace lh st
          ⟨se.page, se.y - lh, se.ops⟩
        else wrapLoop w x size maxW lh (splitWs para) "" st
      let st2 :=
        match ps with
        | [] => st1
        | _ :: _ =>
          let se := ensureSpace (size * 12) st1
          ⟨se.page, se.y - size * 12, se.ops⟩
      drawParas w x size maxW lh ps st2

/-- `drawWrappedText` with the default `lineGap = 1.2`
(`lineHeight = size * 1.2` pt `= size * 30` scaled). -/
def drawWrappedText (w : WidthFn) (text : String) (x size maxW : Int)
    (st : RState) : RState :=
  drawParas w x size maxW (size * 30) (splitNewlines text) st

/-- `drawHeading(text, size)` (lines 286-290). -/
def drawHeading (text : String) (size : Int) (st : RState) : RState :=
  let st1 := ensureSpace (size * 40) st
  let st2 := draw st1 pdfMargin size text
  ⟨st2.page, st2.y - size * 40, st2.ops⟩

/-- The divider's underscore line. -/
def dividerText : String :=
  "______________________________________________________________"

/-- `drawDivider()` (lines 292-303). -/
def drawDivider (st : RState) : RState :=
  let st1 := ensureSpace (12 * SC) st
  let st2 := draw st1 pdfMargin 10 dividerText
  ⟨st2.page, st2.y - 18 * SC, st2.ops⟩

/-! ### The structured view (POST lines 172-201) -/

/-- The five optional summary fields. -/
structure Summary where
  totalEstimatedInitialCost : Option JSValue
  totalEstimatedMonthlyCost : Option JSValue
  notes : Option JSValue
  totalEstimatedCostOverBudget : Option JSValue
  overBudgetReason : Option JSValue

/-- `let summary = \x7b\x7d`. -/
def emptySummary : Summary := ⟨none, none, none, none, none⟩

/-- Lines 182-201: an array document is the recommendations; an object
document with an array `recommendations` contributes that array plus its
five sibling summary fields; anything else leaves both empty. -/
def buildView : Option JSValue → JSList × Summary
  | none => (.nil, emptySummary)
  | some (.jarr l) => (l, emptySummary)
  | some (.jobj ms) =>
    (match jLookup ms "recommendations" with
     | some (.jarr l) =>
        (l, ⟨jLookup ms "totalEstimatedInitialCost", jLookup ms "totalEstimatedMonthlyCost",
             jLookup ms "notes", jLookup ms "totalEstimatedCostOverBudget",
             jLookup ms "overBudgetReason"⟩)
     | _ => (.nil, emptySummary))
  | some _ => (.nil, emptySummary)

/-- Lines 321-326 (`!== undefined` on the totals, truthiness on
`notes` / `overBudgetReason`). -/
def hasSummary (s : Summary) : Bool :=
  s.totalEstimatedInitialCost.isSome || s.totalEstimatedMonthlyCost.isSome ||
    jsTruthyO s.notes || s.totalEstimatedCostOverBudget.isSome ||
    jsTruthyO s.overBudgetReason

/-- Property access `r.k` (a non-object has no string-keyed properties here). -/
def recField (r : JSValue) (k : String) : Option JSValue :=
  match r with
  | .jobj ms => jLookup ms k
  | _ => none

/-- JS `v || dflt` collapsed to a display string (`String(...)` applied). -/
def jsOrString : Option JSValue → String → String
  | some v, dflt => if jsTruthy v then jsToString v else dflt
  | none, dflt => dflt

/-- JS `String(x)` where `none` is `undefined`. -/
def jsOStr : Option JSValue → String
  | some v => jsToString v
  | none => "undefined"

/-- Decimal numeral of a natural (for the `i + 1` interpolations). -/
def natToString (n : Nat) : String := String.mk (natChars n)

/-- The numbered steps loop (lines 446-454). -/
def drawSteps (w : WidthFn) : Nat → JSList → RState → RState
  | _, .nil, st => st
  | idx, .cons s tl, st =>
      let st1 := drawWrappedText w (natToString (idx + 1) ++ ". " ++ jsToString s)
        (pdfMargin + 12 * SC) 10 (contentWidth - 12 * SC) st
      drawSteps w (idx + 1) tl st1

/-- The sources loop (lines 490-499). -/
def drawSources (w : WidthFn) : JSList → RState → RState
  | .nil, st => st
  | .cons s tl, st =>
      let st1 := drawWrappedText w (jsToString s)
        (pdfMargin + 12 * SC) 9 (contentWidth - 12 * SC) st
      drawSources w tl st1

/-- `const rec = recommendations[i] ?? \x7b\x7d` (`??` replaces null only). -/
def recDefault (r0 : JSValue) : JSValue :=
  match r0 with
  | .jnull => .jobj .nil
  | v => v

/-- The numbered service title line (lines 404-419). -/
def drawRecTitle (i : Nat) (r : JSValue) (st : RState) : RState :=
  let title := natToString (i + 1) ++ ". " ++
    jsOrString (recField r "serviceName") (jsOrString (recField r "serviceId") "Service")
  let st1 := ensureSpace (26 * SC) st
  let st2 := draw st1 pdfMargin 14 title
  ⟨st2.page, st2.y - 20 * SC, st2.ops⟩

/-- A money line (item lines 421-431, summary lines 331-345): drawn only
when coercion succeeds. -/
def drawCostLine (w : WidthFn) (pre : String) (size : Int) (v : Option JSValue)
    (st : RState) : RState :=
  match formatMoney v with
  | some c => drawWrappedText w (pre ++ c) pdfMargin size contentWidth st
  | none => st

/-- The steps block (lines 441-456). -/
def drawStepsBlock (wR wB : WidthFn) (v : Option JSValue) (st : RState) : RState :=
  match v with
  | some (.jarr (.cons s0 tl)) =>
    let st1 := drawWrappedText wB "Steps:" pdfMargin 12 contentWidth st
    let st2 := drawSteps wR 0 (.cons s0 tl) st1
    (⟨st2.page, st2.y - 4 * SC, st2.ops⟩ : RState)
  | _ => st

/-- The free-text recommendations block (lines 458-477, truthiness guard). -/
def drawSpecBlock (wR wB : WidthFn) (v : Option JSValue) (st : RState) : RState :=
  if jsTruthyO v then
    let st1 := drawWrappedText wB "Recommendations:" pdfMargin 12 contentWidth st
    let st2 := drawWrappedText wR (jsOStr v) pdfMargin 10 contentWidth st1
    (⟨st2.page, st2.y - 4 * SC, st2.ops⟩ : RState)
  else st

/-- The sources block (lines 481-501). -/
def drawSourcesBlock (wR wB : WidthFn) (v : Option JSValue) (st : RState) : RState :=
  match v with
  | some (.jarr (.cons s0 tl)) =>
    let st1 := drawWrappedText wB "Sources:" pdfMargin 12 contentWidth st
    drawSources wR (.cons s0 tl) st1
  | _ => st

/-- One iteration of the recommendations loop (lines 402-504). -/
def drawRecItem (wR wB : WidthFn) (i : Nat) (r0 : JSValue) (st : RState) : RState :=
  let r := recDefault r0
  let st := drawRecTitle i r st
  let st := drawCostLine wR "Initial Cost: " 11 (recField r "estimatedInitialCost") st
  let st := drawCostLine wR "Monthly Cost: " 11 (recField r "estimatedMonthlyCost") st
  let st : RState := ⟨st.page, st.y - 4 * SC, st.ops⟩
  let st := drawStepsBlock wR wB (recField r "steps") st
  let st := drawSpecBlock wR wB (recField r "specificRecommendations") st
  let st := drawSourcesBlock wR wB (recField r "sources") st
  let st : RState := ⟨st.page, st.y - 10 * SC, st.ops⟩
  drawDivider st

/-- The whole recommendations loop. -/
def drawRecItems (wR wB : WidthFn) : Nat → JSList → RState → RState
  | _, .nil, st => st
  | i, .cons r tl, st => drawRecItems wR wB (i + 1) tl (drawRecItem wR wB i r st)

/-- The over-budget line (lines 360-373): drawn only when coercion
succeeds. -/
def drawOverBudgetLine (w : WidthFn) (v : Option JSValue) (st : RState) : RState :=
  match coerceNumber v with
  | some n => drawWrappedText w ("Over Budget: $" ++ decToLocaleString n)
      pdfMargin 12 contentWidth st
  | none => st

/-- The over-budget reason line (lines 375-381, truthiness guard). -/
def drawReasonLine (w : WidthFn) (v : Option JSValue) (st : RState) : RState :=
  if jsTruthyO v then
    drawWrappedText w ("Reason: " ++ jsOStr v) pdfMargin 11 contentWidth st
  else st

/-- The notes block (lines 383-393, truthiness guard). -/
def drawNotesBlock (wR wB : WidthFn) (v : Option JSValue) (st : RState) : RState :=
  if jsTruthyO v then
    let st1 : RState := ⟨st.page, st.y - 6 * SC, st.ops⟩
    let st2 := drawWrappedText wB "Notes:" pdfMargin 12 contentWidth st1
    drawWrappedText wR (jsOStr v) pdfMargin 11 contentWidth st2
  else st

/-- The summary block (lines 328-396). -/
def renderSummary (wR wB : WidthFn) (sm : Summary) (st : RState) : RState :=
  if hasSummary sm then
    let st := drawHeading "Summary" 18 st
    let st := drawCostLine wR "Total Estimated Initial Cost: " 12
      sm.totalEstimatedInitialCost st
    let st := drawCostLine wR "Total Estimated Monthly Cost: " 12
      sm.totalEstimatedMonthlyCost st
    let st := drawOverBudgetLine wR sm.totalEstimatedCostOverBudget st
    let st := drawReasonLine wR sm.overBudgetReason st
    let st := drawNotesBlock wR wB sm.notes st
    let st : RState := ⟨st.page, st.y - 8 * SC, st.ops⟩
    drawDivider st
  else st

/-- The placeholder paragraph of the empty-input fallback (lines 520-522). -/
def placeholderText : String :=
  "The request body did not contain parseable recommendations. " ++
  "Send either: (1) a full object with a `recommendations` array, " ++
  "(2) a recommendations array, or (3) a string containing JSON " ++
  "(optionally inside ```json code fences```)"

/-- The full drawing pipeline of the POST handler on a request body:
title, date line, summary, recommendations or raw/placeholder fallback.
`dateStr` abstracts `new Date().toLocaleDateString(...)`. -/
def renderDoc (wR wB : WidthFn) (dateStr : String) (body : JSValue) : RState :=
  let nr := normalizeInput body
  let view := buildView nr.doc
  let st := initState
  let st := drawHeading "Society-as-a-Service Recommendations" 24 st
  let st := ensureSpace (18 * SC) st
  let st := draw st pdfMargin 10 ("Generated on: " ++ dateStr)
  let st : RState := ⟨st.page, st.y - 26 * SC, st.ops⟩
  let st := renderSummary wR wB view.2 st
  match view.1 with
  | .cons r tl =>
    let st := drawHeading "Recommendations" 18 st
    drawRecItems wR wB 0 (.cons r tl) st
  | .nil =>
    let fallback := match nr.rawText with
      | some t => t
      | none => match body with
        | .jstr s => s
        | _ => ""
    if fallback ≠ "" ∧ jsTrim fallback ≠ "" then
      let st := drawHeading "Recommendations (Raw)" 18 st
      drawWrappedText wR fallback pdfMargin 10 contentWidth st
    else
      let st := drawHeading "No recommendations found" 18 st
      drawWrappedText wR placeholderText pdfMargin 10 contentWidth st

/-! ## Round-trip: `jsonParse (jsonStringify v) = some v` for well-formed `v`

The development follows the usual serializer/parser discipline: each
printer is inverted with an arbitrary trailing context, and the three
mutual structures are handled through the mutual recursor. -/

theorem digitChar_facts : ∀ d, d < 10 →
    (digitChar d).isDigit = true ∧ (digitChar d).toNat = 48 + d ∧
    jsonWsChar (digitChar d) = false ∧ digitChar d ≠ '"' ∧
    digitChar d ≠ Char.ofNat 123 ∧ digitChar d ≠ '[' ∧ digitChar d ≠ 't' ∧
    digitChar d ≠ 'f' ∧ digitChar d ≠ 'n' ∧ digitChar d ≠ '-' ∧
    digitChar d ≠ '.' ∧ digitChar d ≠ 'e' ∧ digitChar d ≠ 'E' ∧
    digitChar d ≠ ']' ∧ digitChar d ≠ Char.ofNat 125 ∧ digitChar d ≠ ',' := by
  decide

theorem digitChar_ne_zero_iff : ∀ d, d < 10 → (d ≠ 0 → digitChar d ≠ '0') := by
  decide

theorem hexVal_hexDigitChar : ∀ h, h < 16 → hexVal (hexDigitChar h) = some h := by
  decide

theorem skipWs_cons (c : Char) (cs : List Char) (h : jsonWsChar c = false) :
    skipWs (c :: cs) = c :: cs := by
  simp [skipWs, h]

theorem escapeChars_cons (c : Char) (cs : List Char) :
    escapeChars (c :: cs) = escapeChar c ++ escapeChars cs := rfl

theorem escapeChar_length_pos (c : Char) : 1 ≤ (escapeChar c).length := by
  unfold escapeChar
  split
  · simp
  · split
    · simp
    · split
      · simp
      · split
        · simp
        · split
          · simp
          · split
            · simp
            · split
              · simp
              · split <;> simp

theorem escapeChars_length_ge (cs : List Char) :
    cs.length ≤ (escapeChars cs).length := by
  induction cs with
  | nil => simp [escapeChars]
  | cons c cs ih =>
    rw [escapeChars_cons]
    have := escapeChar_length_pos c
    simp only [List.length_append, List.length_cons]
    omega

theorem parseStringBody_print :
    ∀ (cs rest : List Char) (f : Nat), cs.length < f →
      parseStringBody f (escapeChars cs ++ '"' :: rest) = some (cs, rest) := by
  intro cs
  induction cs with
  | nil =>
    intro rest f hf
    match f, hf with
    | f + 1, _ => simp [escapeChars, parseStringBody]
  | cons c cs ih =>
    intro rest f hf
    match f, hf with
    | f + 1, hf =>
      have hlen : cs.length < f := by
        simp only [List.length_cons] at hf
        omega
      have ihr := ih rest f hlen
      rw [escapeChars_cons, List.append_assoc]
      unfold escapeChar
      by_cases h1 : c = '"'
      · subst h1
        simp [parseStringBody, ihr]
      · rw [if_neg h1]
        by_cases h2 : c = '\\'
        · subst h2
          simp [parseStringBody, ihr]
        · rw [if_neg h2]
          by_cases h3 : c = '\n'
          · subst h3
            simp [parseStringBody, ihr]
          · rw [if_neg h3]
            by_cases h4 : c = '\r'
            · subst h4
              simp [parseStringBody, ihr]
            · rw [if_neg h4]
              by_cases h5 : c = '\t'
              · subst h5
                simp [parseStringBody, ihr]
              · rw [if_neg h5]
                by_cases h6 : c = '\x08'
                · subst h6
                  simp [parseStringBody, ihr]
                · rw [if_neg h6]
                  by_cases h7 : c = '\x0c'
                  · subst h7
                    simp [parseStringBody, ihr]
                  · rw [if_neg h7]
                    by_cases h8 : c.toNat < 32
                    · rw [if_pos h8]
                      have hq : (c.toNat / 16) < 16 := by omega
                      have hr : (c.toNat % 16) < 16 := by omega
                      have e1 := hexVal_hexDigitChar _ hq
                      have e2 := hexVal_hexDigitChar _ hr
                      have hval : ((0 * 16 + 0) * 16 + c.toNat / 16) * 16 + c.toNat % 16
                          = c.toNat := by omega
                      have hsur1 : ¬(0xd800 ≤ c.toNat ∧ c.toNat < 0xdc00) := by omega
                      have hsur2 : ¬(0xdc00 ≤ c.toNat ∧ c.toNat < 0xe000) := by omega
                      simp only [parseStringBody, parseHex4, List.cons_append,
                        List.nil_append]
                      simp only [e1, e2]
                      have hval2 : c.toNat / 16 * 16 + c.toNat % 16 = c.toNat := by
                        omega
                      simp [hval2, hsur1, hsur2, Char.ofNat_toNat, ihr,
                        show hexVal '0' = some 0 from by decide]
                    · rw [if_neg h8]
                      simp only [List.cons_append, List.nil_append, parseStringBody]
                      rw [if_neg h1, if_neg h2, if_neg h8, ihr]
                      rfl

/-- The context after a printed number must not extend it. -/
def numStop : List Char → Prop
  | [] => True
  | c :: _ => c.isDigit = false ∧ c ≠ '.' ∧ c ≠ 'e' ∧ c ≠ 'E'

theorem natDigits_step (n : Nat) (h10 : ¬n < 10) :
    natDigits n = natDigits (n / 10) ++ [n % 10] := by
  show natDigitsAux (n + 1) n [] = _
  have h : natDigitsAux (n + 1) n [] = natDigitsAux n (n / 10) (n % 10 :: []) := by
    simp [natDigitsAux, h10]
  rw [h, natDigitsAux_spec (n / 10) n (n % 10 :: [])
    (by exact Nat.div_lt_self (by omega) (by omega))]

theorem natDigits_length_le :
    ∀ (e n : Nat), n < 10 ^ e → 1 ≤ e → (natDigits n).length ≤ e := by
  intro e
  induction e with
  | zero => omega
  | succ e ih =>
    intro n hn _
    by_cases h10 : n < 10
    · have : natDigits n = [n] := by simp [natDigits, natDigitsAux, h10]
      rw [this]
      simp
    · have he1 : 1 ≤ e := by
        by_contra h
        have : e = 0 := by omega
        subst this
        simp [pow_succ] at hn
        omega
      have hdiv : n / 10 < 10 ^ e := by
        rw [Nat.div_lt_iff_lt_mul (by norm_num)]
        rw [pow_succ] at hn
        omega
      rw [natDigits_step n h10]
      have := ih (n / 10) hdiv he1
      simp only [List.length_append, List.length_cons, List.length_nil]
      omega

theorem digitsVal_replicate_zero (k : Nat) (L : List Nat) :
    digitsVal (List.replicate k 0 ++ L) = digitsVal L := by
  induction k with
  | zero => simp
  | succ k ih =>
    simp only [List.replicate_succ, List.cons_append]
    show digitsVal (List.replicate k 0 ++ L) = digitsVal L
    exact ih

theorem takeDigits_print :
    ∀ (ds : List Nat), (∀ d ∈ ds, d < 10) → ∀ (rest : List Char),
      (∀ c cs, rest = c :: cs → c.isDigit = false) →
      takeDigits (ds.map digitChar ++ rest) = (ds, rest) := by
  intro ds
  induction ds with
  | nil =>
    intro _ rest hr
    cases rest with
    | nil => rfl
    | cons c cs => simp [takeDigits, hr c cs rfl]
  | cons d ds ih =>
    intro hlt rest hr
    have hd : d < 10 := hlt d (by simp)
    obtain ⟨hdig, hval, _⟩ := digitChar_facts d hd
    have ihd := ih (fun x hx => hlt x (by simp [hx])) rest hr
    simp only [List.map_cons, List.cons_append, takeDigits, hdig, if_pos, hval, ihd]
    simp [ihd]

theorem parseNumberExp_stop (neg : Bool) (m0 e0 : Nat) (rest : List Char)
    (h : numStop rest) :
    parseNumberExp neg m0 e0 rest
      = some (⟨if neg then -(m0 : Int) else (m0 : Int), e0⟩, rest) := by
  cases rest with
  | nil => simp [parseNumberExp]
  | cons c r =>
    obtain ⟨_, _, he, hE⟩ := h
    simp [parseNumberExp, he, hE]

theorem parseNumberFrac_stop (neg : Bool) (ip : Nat) (rest : List Char)
    (h : numStop rest) :
    parseNumberFrac neg ip rest
      = some (⟨if neg then -(ip : Int) else (ip : Int), 0⟩, rest) := by
  cases rest with
  | nil => simp [parseNumberFrac, parseNumberExp]
  | cons c r =>
    obtain ⟨_, hdot, he, hE⟩ := h
    simp only [parseNumberFrac, if_neg hdot]
    exact parseNumberExp_stop neg ip 0 (c :: r) ⟨‹_›, hdot, he, hE⟩

theorem numStop_head_not_digit (rest : List Char) (h : numStop rest) :
    ∀ c cs, rest = c :: cs → c.isDigit = false := by
  intro c cs hc
  subst hc
  exact h.1

theorem intPart_parse (neg : Bool) (n : Nat) (T : List Char)
    (hT : ∀ c cs, T = c :: cs → c.isDigit = false) :
    (match natChars n ++ T with
     | [] => none
     | c :: r =>
        if c = '0' then parseNumberFrac neg 0 r
        else if c.isDigit then
          let p := takeDigits (c :: r)
          parseNumberFrac neg (digitsVal p.1) p.2
        else none) = parseNumberFrac neg n T := by
  by_cases hn : n = 0
  · subst hn
    have h0 : natChars 0 = ['0'] := by rfl
    rw [h0]
    simp
  · rcases hds : natDigits n with _ | ⟨d0, ds⟩
    · exact absurd hds (natDigits_ne_nil n)
    · have hd0 : d0 ≠ 0 := by
        exact natDigits_head_ne_zero n hn d0 (by rw [hds]; rfl)
      have hall : ∀ x ∈ d0 :: ds, x < 10 := by
        rw [← hds]
        exact natDigits_lt_ten n
      have hd0lt : d0 < 10 := hall d0 (by simp)
      obtain ⟨hdig, _⟩ := digitChar_facts d0 hd0lt
      have hne0 : digitChar d0 ≠ '0' := digitChar_ne_zero_iff d0 hd0lt hd0
      have hchars : natChars n = digitChar d0 :: ds.map digitChar := by
        rw [natChars, hds, List.map_cons]
      rw [hchars]
      have htake : takeDigits (digitChar d0 :: (ds.map digitChar ++ T))
          = (d0 :: ds, T) := by
        have := takeDigits_print (d0 :: ds) hall T hT
        simpa using this
      simp only [List.cons_append, if_neg hne0, hdig, if_pos, htake]
      have hval : digitsVal (d0 :: ds) = n := by
        rw [← hds]
        exact digitsVal_natDigits n
      simp [hval]

theorem natChars_cons (n : Nat) :
    ∃ d0 ds, natDigits n = d0 :: ds ∧ d0 < 10 ∧
      natChars n = digitChar d0 :: ds.map digitChar := by
  rcases hds : natDigits n with _ | ⟨d0, ds⟩
  · exact absurd hds (natDigits_ne_nil n)
  · exact ⟨d0, ds, rfl, natDigits_lt_ten n d0 (by rw [hds]; simp),
      by rw [natChars, hds, List.map_cons]⟩

theorem parseNumber_signed (n : Nat) (T : List Char)
    (hT : ∀ c cs, T = c :: cs → c.isDigit = false) :
    parseNumber ('-' :: (natChars n ++ T)) = parseNumberFrac true n T := by
  simp only [parseNumber]
  exact intPart_parse true n T hT

theorem parseNumber_unsigned (n : Nat) (T : List Char)
    (hT : ∀ c cs, T = c :: cs → c.isDigit = false) :
    parseNumber (natChars n ++ T) = parseNumberFrac false n T := by
  by_cases hn : n = 0
  · subst hn
    show parseNumber ('0' :: T) = _
    simp [parseNumber]
  · obtain ⟨d0, ds, hds, hd0lt, hchars⟩ := natChars_cons n
    have hd0 : d0 ≠ 0 := natDigits_head_ne_zero n hn d0 (by rw [hds]; rfl)
    obtain ⟨hdig, _, _, _, _, _, _, _, _, hminus, _⟩ := digitChar_facts d0 hd0lt
    have hne0 := digitChar_ne_zero_iff d0 hd0lt hd0
    have hall : ∀ x ∈ d0 :: ds, x < 10 := by
      rw [← hds]
      exact natDigits_lt_ten n
    rw [hchars, List.cons_append]
    simp only [parseNumber, if_neg hminus, if_neg hne0, hdig, if_pos]
    have htake : takeDigits (digitChar d0 :: (ds.map digitChar ++ T))
        = (d0 :: ds, T) := by
      have := takeDigits_print (d0 :: ds) hall T hT
      simpa using this
    rw [htake]
    have hval : digitsVal (d0 :: ds) = n := by
      rw [← hds]
      exact digitsVal_natDigits n
    rw [hval]

theorem parseNumberFrac_dot (neg : Bool) (ip : Nat) (fracDs : List Nat)
    (rest : List Char) (hall : ∀ x ∈ fracDs, x < 10) (hne : fracDs ≠ [])
    (h : numStop rest) :
    parseNumberFrac neg ip ('.' :: (fracDs.map digitChar ++ rest))
      = parseNumberExp neg (ip * 10 ^ fracDs.length + digitsVal fracDs)
          fracDs.length rest := by
  simp only [parseNumberFrac, if_pos rfl]
  rw [takeDigits_print fracDs hall rest (numStop_head_not_digit rest h)]
  rcases fracDs with _ | ⟨x, xs⟩
  · exact absurd rfl hne
  · rfl

theorem parseNumberFrac_stop_t (ip : Nat) (rest : List Char) (h : numStop rest) :
    parseNumberFrac true ip rest = some (⟨-(ip : Int), 0⟩, rest) := by
  rw [parseNumberFrac_stop true ip rest h]
  rfl

theorem parseNumberFrac_stop_f (ip : Nat) (rest : List Char) (h : numStop rest) :
    parseNumberFrac false ip rest = some (⟨(ip : Int), 0⟩, rest) := by
  rw [parseNumberFrac_stop false ip rest h]
  rfl

theorem parseNumberExp_stop_t (m0 e0 : Nat) (rest : List Char) (h : numStop rest) :
    parseNumberExp true m0 e0 rest = some (⟨-(m0 : Int), e0⟩, rest) := by
  rw [parseNumberExp_stop true m0 e0 rest h]
  rfl

theorem parseNumberExp_stop_f (m0 e0 : Nat) (rest : List Char) (h : numStop rest) :
    parseNumberExp false m0 e0 rest = some (⟨(m0 : Int), e0⟩, rest) := by
  rw [parseNumberExp_stop false m0 e0 rest h]
  rfl

theorem parseNumber_print (d : JDec) (rest : List Char) (h : numStop rest) :
    parseNumber (decCharsRaw d ++ rest) = some (d, rest) := by
  rcases d with ⟨m, e⟩
  by_cases he : e = 0
  · subst he
    by_cases hm : m < 0
    · have hsign : decCharsRaw ⟨m, 0⟩ = '-' :: natChars m.natAbs := by
        simp [decCharsRaw, hm]
      rw [hsign, List.cons_append,
        parseNumber_signed m.natAbs rest (numStop_head_not_digit rest h),
        parseNumberFrac_stop_t m.natAbs rest h]
      have hval : -(m.natAbs : Int) = m := by omega
      rw [hval]
    · have hsign : decCharsRaw ⟨m, 0⟩ = natChars m.natAbs := by
        simp [decCharsRaw, hm]
      rw [hsign,
        parseNumber_unsigned m.natAbs rest (numStop_head_not_digit rest h),
        parseNumberFrac_stop_f m.natAbs rest h]
      have hval : (m.natAbs : Int) = m := by omega
      rw [hval]
  · have he1 : 1 ≤ e := by omega
    set a := m.natAbs with ha
    set fv := a % 10 ^ e with hfv
    set fd := natDigits fv with hfd
    set fracDs := List.replicate (e - fd.length) 0 ++ fd with hfracDs
    have hfvlt : fv < 10 ^ e := Nat.mod_lt _ (by positivity)
    have hlen : fd.length ≤ e := by
      rw [hfd]
      exact natDigits_length_le e fv hfvlt he1
    have hfraclen : fracDs.length = e := by
      rw [hfracDs]
      simp only [List.length_append, List.length_replicate]
      omega
    have hfracne : fracDs ≠ [] := by
      intro hx
      have hl := congrArg List.length hx
      rw [hfraclen] at hl
      simp at hl
      omega
    have hfracall : ∀ x ∈ fracDs, x < 10 := by
      intro x hx
      rcases List.mem_append.1 hx with hx | hx
      · have := List.eq_of_mem_replicate hx
        omega
      · exact natDigits_lt_ten fv x hx
    have hfracval : digitsVal fracDs = fv := by
      rw [hfracDs, digitsVal_replicate_zero, hfd]
      exact digitsVal_natDigits fv
    have hrecomb : a / 10 ^ e * 10 ^ e + fv = a := by
      have hdm := Nat.div_add_mod a (10 ^ e)
      rw [Nat.mul_comm] at hdm
      rw [hfv]
      exact hdm
    have hT : ∀ c cs,
        ('.' :: (fracDs.map digitChar ++ rest) : List Char) = c :: cs →
          c.isDigit = false := by
      intro c cs hc
      simp only [List.cons.injEq] at hc
      rw [← hc.1]
      decide
    by_cases hm : m < 0
    · have hshape : decCharsRaw ⟨m, e⟩ ++ rest
          = '-' :: (natChars (a / 10 ^ e) ++
              ('.' :: (fracDs.map digitChar ++ rest))) := by
        simp only [decCharsRaw, if_neg he, ← ha, ← hfv, ← hfd, ← hfracDs]
        rw [if_pos hm]
        simp [List.append_assoc]
      rw [hshape, parseNumber_signed (a / 10 ^ e) _ hT,
        parseNumberFrac_dot true (a / 10 ^ e) fracDs rest hfracall hfracne h,
        hfracval, hfraclen, hrecomb,
        parseNumberExp_stop_t a e rest h]
      have hval : -(a : Int) = m := by omega
      rw [hval]
    · have hshape : decCharsRaw ⟨m, e⟩ ++ rest
          = natChars (a / 10 ^ e) ++
              ('.' :: (fracDs.map digitChar ++ rest)) := by
        simp only [decCharsRaw, if_neg he, ← ha, ← hfv, ← hfd, ← hfracDs]
        rw [if_neg hm]
        simp [List.append_assoc]
      rw [hshape, parseNumber_unsigned (a / 10 ^ e) _ hT,
        parseNumberFrac_dot false (a / 10 ^ e) fracDs rest hfracall hfracne h,
        hfracval, hfraclen, hrecomb,
        parseNumberExp_stop_f a e rest h]
      have hval : (a : Int) = m := by omega
      rw [hval]

mutual
/-- Fuel needed by `parseValue` on the printed form of `v`. -/
def psize : JSValue → Nat
  | .jnull => 1
  | .jbool _ => 1
  | .jnum _ => 1
  | .jstr _ => 1
  | .jarr l => 2 + psizeL l
  | .jobj ms => 2 + psizeM ms
/-- Fuel needed by `parseElemsLoop` on printed elements. -/
def psizeL : JSList → Nat
  | .nil => 0
  | .cons x tl => 1 + psize x + psizeL tl
/-- Fuel needed by `parseMembersLoop` on printed members. -/
def psizeM : JMembers → Nat
  | .nil => 0
  | .cons _ v tl => 1 + psize v + psizeM tl
end

theorem JMembers.nil_append (ms : JMembers) : JMembers.nil.append ms = ms := rfl

/-- Spine induction for object members (no recursion into values). -/
theorem JMembers.spineIndKV (P : JMembers → Prop) (h0 : P .nil)
    (h1 : ∀ k v tl, P tl → P (.cons k v tl)) : ∀ ms, P ms
  | .nil => h0
  | .cons k v tl => h1 k v tl (JMembers.spineIndKV P h0 h1 tl)

/-- Spine induction for JSON lists. -/
theorem JSList.spineIndEl (P : JSList → Prop) (h0 : P .nil)
    (h1 : ∀ x tl, P tl → P (.cons x tl)) : ∀ l, P l
  | .nil => h0
  | .cons x tl => h1 x tl (JSList.spineIndEl P h0 h1 tl)

theorem jLookup_append (a b : JMembers) (k : String) :
    jLookup (a.append b) k
      = match jLookup a k with
        | some v => some v
        | none => jLookup b k := by
  induction a using JMembers.spineIndKV with
  | h0 => simp [JMembers.append, jLookup]
  | h1 k0 v0 tl ih =>
    by_cases hk : k0 = k
    · simp [JMembers.append, jLookup, hk]
    · simp [JMembers.append, jLookup, hk, ih]

theorem hasKey_append (a b : JMembers) (k : String) :
    (a.append b).hasKey k = (a.hasKey k || b.hasKey k) := by
  simp only [JMembers.hasKey, jLookup_append]
  rcases jLookup a k with _ | v <;> simp

theorem jsInsert_fresh (ms : JMembers) (k : String) (v : JSValue)
    (h : ms.hasKey k = false) :
    jsInsert ms k v = ms.append (.cons k v .nil) := by
  induction ms using JMembers.spineIndKV with
  | h0 => rfl
  | h1 k0 v0 tl ih =>
    have hk0 : k0 ≠ k := by
      intro hx
      subst hx
      simp [JMembers.hasKey, jLookup] at h
    have htl : tl.hasKey k = false := by
      simp only [JMembers.hasKey, jLookup, if_neg hk0] at h
      exact h
    simp [jsInsert, hk0, JMembers.append, ih htl]

theorem append_cons_assoc (acc : JMembers) (k : String) (v : JSValue)
    (tl : JMembers) :
    (acc.append (.cons k v .nil)).append tl = acc.append (.cons k v tl) := by
  induction acc using JMembers.spineIndKV with
  | h0 => rfl
  | h1 k0 v0 a ih => simp [JMembers.append, ih]

theorem decCharsRaw_head (d : JDec) :
    ∃ c cs, decCharsRaw d = c :: cs ∧
      (c = '-' ∨ ∃ k, k < 10 ∧ c = digitChar k) := by
  rcases d with ⟨m, e⟩
  by_cases he : e = 0
  · subst he
    by_cases hm : m < 0
    · exact ⟨'-', natChars m.natAbs, by simp [decCharsRaw, hm], Or.inl rfl⟩
    · obtain ⟨d0, ds, _, hd0lt, hchars⟩ := natChars_cons m.natAbs
      exact ⟨digitChar d0, ds.map digitChar,
        by simp [decCharsRaw, hm, hchars], Or.inr ⟨d0, hd0lt, rfl⟩⟩
  · by_cases hm : m < 0
    · have hx : decCharsRaw ⟨m, e⟩
          = '-' :: (natChars (m.natAbs / 10 ^ e) ++
              '.' :: (List.replicate
                  (e - (natDigits (m.natAbs % 10 ^ e)).length) 0 ++
                natDigits (m.natAbs % 10 ^ e)).map digitChar) := by
        simp only [decCharsRaw, if_neg he]
        rw [if_pos hm]
        simp
      exact ⟨'-', _, hx, Or.inl rfl⟩
    · obtain ⟨d0, ds, _, hd0lt, hchars⟩ := natChars_cons (m.natAbs / 10 ^ e)
      have hx : decCharsRaw ⟨m, e⟩
          = digitChar d0 :: (ds.map digitChar ++
              '.' :: (List.replicate
                  (e - (natDigits (m.natAbs % 10 ^ e)).length) 0 ++
                natDigits (m.natAbs % 10 ^ e)).map digitChar) := by
        simp only [decCharsRaw, if_neg he]
        rw [if_neg hm]
        simp [hchars]
      exact ⟨digitChar d0, _, hx, Or.inr ⟨d0, hd0lt, rfl⟩⟩

/-- The head of any printed value: never whitespace, never a closer. -/
theorem printChars_head (v : JSValue) :
    ∃ c cs, printChars v = c :: cs ∧ jsonWsChar c = false ∧
      c ≠ ']' ∧ c ≠ Char.ofNat 125 := by
  cases v with
  | jnull => refine ⟨'n', _, rfl, ?_, ?_, ?_⟩ <;> decide
  | jbool b =>
    cases b
    · refine ⟨'f', _, rfl, ?_, ?_, ?_⟩ <;> decide
    · refine ⟨'t', _, rfl, ?_, ?_, ?_⟩ <;> decide
  | jnum d =>
    obtain ⟨c, cs, hc, hdisc⟩ := decCharsRaw_head d.norm
    refine ⟨c, cs, hc, ?_, ?_, ?_⟩ <;>
      rcases hdisc with rfl | ⟨k, hk, rfl⟩
    · decide
    · exact (digitChar_facts k hk).2.2.1
    · decide
    · exact (digitChar_facts k hk).2.2.2.2.2.2.2.2.2.2.2.2.2.1
    · decide
    · exact (digitChar_facts k hk).2.2.2.2.2.2.2.2.2.2.2.2.2.2.1
  | jstr s => exact ⟨'"', _, rfl, by decide, by decide, by decide⟩
  | jarr l => exact ⟨'[', _, rfl, by decide, by decide, by decide⟩
  | jobj ms => exact ⟨Char.ofNat 123, _, rfl, by decide, by decide, by decide⟩

theorem skipWs_printChars (v : JSValue) (X : List Char) :
    skipWs (printChars v ++ X) = printChars v ++ X := by
  obtain ⟨c, cs, hc, hws, _⟩ := printChars_head v
  rw [hc, List.cons_append, skipWs_cons _ _ hws]

/-- Mutual structural induction over the three JSON shapes. -/
theorem jsMutualInd (M1 : JSValue → Prop) (M2 : JSList → Prop) (M3 : JMembers → Prop)
    (hnull : M1 .jnull) (hbool : ∀ b, M1 (.jbool b)) (hnum : ∀ d, M1 (.jnum d))
    (hstr : ∀ s, M1 (.jstr s)) (harr : ∀ l, M2 l → M1 (.jarr l))
    (hobj : ∀ ms, M3 ms → M1 (.jobj ms)) (hnil : M2 .nil)
    (hcons : ∀ x tl, M1 x → M2 tl → M2 (.cons x tl)) (hmnil : M3 .nil)
    (hmcons : ∀ k v tl, M1 v → M3 tl → M3 (.cons k v tl)) :
    (∀ v, M1 v) ∧ (∀ l, M2 l) ∧ (∀ ms, M3 ms) :=
  ⟨fun v => @JSValue.rec M1 M2 M3 hnull hbool hnum hstr harr hobj hnil hcons hmnil hmcons v,
   fun l => @JSList.rec M1 M2 M3 hnull hbool hnum hstr harr hobj hnil hcons hmnil hmcons l,
   fun ms => @JMembers.rec M1 M2 M3 hnull hbool hnum hstr harr hobj hnil hcons hmnil hmcons ms⟩

theorem psize_le_print :
    (∀ v : JSValue, psize v ≤ 3 * (printChars v).length)
    ∧ (∀ l : JSList, psizeL l ≤ 3 * (printList l).length + 1)
    ∧ (∀ ms : JMembers, psizeM ms ≤ 3 * (printMembers ms).length + 1) := by
  refine jsMutualInd _ _ _ ?_ ?_ ?_ ?_ ?_ ?_ ?_ ?_ ?_ ?_
  · simp [psize, printChars]
  · intro b
    cases b <;> simp [psize, printChars]
  · intro d
    obtain ⟨c, cs, hc, _⟩ := decCharsRaw_head d.norm
    simp only [psize, printChars, hc]
    simp only [List.length_cons]
    omega
  · intro s
    simp only [psize, printChars, strLit, List.length_cons, List.length_append]
    omega
  · intro l ih
    simp only [psize, printChars, List.length_cons, List.length_append]
    omega
  · intro ms ih
    simp only [psize, printChars, List.length_cons, List.length_append]
    omega
  · simp [psizeL]
  · intro x tl ihx ihtl
    cases tl with
    | nil => simp only [psizeL, printList]; omega
    | cons y ytl =>
      simp only [psizeL, printList, List.length_append, List.length_cons] at *
      omega
  · simp [psizeM]
  · intro k v tl ihv ihtl
    cases tl with
    | nil => simp only [psizeM, printMembers, List.length_append, List.length_cons]; omega
    | cons k2 v2 ttl =>
      simp only [psizeM, printMembers, List.length_append, List.length_cons] at *
      omega

/-- Round-trip motive for values. -/
def RTv (v : JSValue) : Prop :=
  jsWF v = true → ∀ (rest : List Char) (f : Nat), psize v ≤ f → numStop rest →
    parseValue f (printChars v ++ rest) = some (v, rest)

/-- Round-trip motive for array elements. -/
def RTl (l : JSList) : Prop :=
  jsWFList l = true → ∀ (rest : List Char) (f : Nat), psizeL l ≤ f → l ≠ .nil →
    parseElemsLoop f (printList l ++ ']' :: rest) = some (l, rest)

/-- Round-trip motive for object members. -/
def RTm (ms : JMembers) : Prop :=
  jsWFMembers ms = true → ∀ (acc : JMembers) (rest : List Char) (f : Nat),
    psizeM ms ≤ f → ms ≠ .nil →
    (∀ k, ms.hasKey k = true → acc.hasKey k = false) →
    parseMembersLoop f (printMembers ms ++ Char.ofNat 125 :: rest) acc
      = some (.jobj (acc.append ms), rest)

theorem rt_null : RTv .jnull := by
  intro _ rest f hf _
  obtain ⟨f1, rfl⟩ : ∃ g, f = g + 1 := ⟨f - 1, by simp [psize] at hf; omega⟩
  simp [printChars, parseValue]

theorem rt_bool (b : Bool) : RTv (.jbool b) := by
  intro _ rest f hf _
  obtain ⟨f1, rfl⟩ : ∃ g, f = g + 1 := ⟨f - 1, by simp [psize] at hf; omega⟩
  cases b <;> simp [printChars, parseValue]

theorem rt_str (s : String) : RTv (.jstr s) := by
  intro _ rest f hf _
  obtain ⟨f1, rfl⟩ : ∃ g, f = g + 1 := ⟨f - 1, by simp [psize] at hf; omega⟩
  have hshape : printChars (.jstr s) ++ rest
      = '"' :: (escapeChars s.data ++ '"' :: rest) := by
    simp [printChars, strLit]
  rw [hshape]
  have hfuel : s.data.length < (escapeChars s.data ++ '"' :: rest).length + 1 := by
    have := escapeChars_length_ge s.data
    simp only [List.length_append, List.length_cons]
    omega
  simp only [parseValue, if_pos]
  rw [parseStringBody_print s.data rest _ hfuel]

theorem rt_num (d : JDec) : RTv (.jnum d) := by
  intro hwf rest f hf hstop
  obtain ⟨f1, rfl⟩ : ∃ g, f = g + 1 := ⟨f - 1, by simp [psize] at hf; omega⟩
  have hnorm : d.norm = d := by
    simpa [jsWF] using hwf
  have hpr : printChars (.jnum d) = decCharsRaw d := by
    simp [printChars, hnorm]
  obtain ⟨c, cs0, hc, hdisc⟩ := decCharsRaw_head d
  have hfacts : c ≠ '"' ∧ c ≠ Char.ofNat 123 ∧ c ≠ '[' ∧ c ≠ 't' ∧
      c ≠ 'f' ∧ c ≠ 'n' := by
    rcases hdisc with rfl | ⟨k, hk, rfl⟩
    · refine ⟨?_, ?_, ?_, ?_, ?_, ?_⟩ <;> decide
    · obtain ⟨_, _, _, h1, h2, h3, h4, h5, h6, _⟩ := digitChar_facts k hk
      exact ⟨h1, h2, h3, h4, h5, h6⟩
  obtain ⟨hq, hbr, hsq, ht, hfc, hn⟩ := hfacts
  have hshape : printChars (.jnum d) ++ rest = c :: (cs0 ++ rest) := by
    rw [hpr, hc, List.cons_append]
  rw [hshape]
  simp only [parseValue, if_neg hq, if_neg hbr, if_neg hsq, if_neg ht,
    if_neg hfc, if_neg hn]
  rw [← List.cons_append, ← hc, ← hpr]
  rw [hpr, parseNumber_print d rest hstop]

theorem printList_cons_shape (y : JSValue) (ytl : JSList) :
    ∃ X, printList (.cons y ytl) = printChars y ++ X := by
  cases ytl with
  | nil => exact ⟨[], by simp [printList]⟩
  | cons z ztl => exact ⟨',' :: printList (.cons z ztl), by simp [printList]⟩

theorem printMembers_cons_shape (k : String) (v : JSValue) (tl : JMembers) :
    ∃ X, printMembers (.cons k v tl) = '"' :: (escapeChars k.data ++ '"' :: X) := by
  cases tl with
  | nil =>
    refine ⟨':' :: printChars v, ?_⟩
    simp [printMembers, strLit]
  | cons k2 v2 ttl =>
    refine ⟨':' :: (printChars v ++ ',' :: printMembers (.cons k2 v2 ttl)), ?_⟩
    simp [printMembers, strLit]

theorem parseArrayBody_cons (f : Nat) (c : Char) (L : List Char) (h : ¬(c = ']')) :
    parseArrayBody (f + 1) (c :: L)
      = match parseElemsLoop f (c :: L) with
        | some (vs, r) => some (.jarr vs, r)
        | none => none := by
  simp only [parseArrayBody]
  split
  · rename_i heq
    rw [List.cons.injEq] at heq
    exact absurd heq.1 h
  · rfl

theorem parseObjectBody_cons (f : Nat) (c : Char) (L : List Char)
    (h : ¬(c = Char.ofNat 125)) :
    parseObjectBody (f + 1) (c :: L) = parseMembersLoop f (c :: L) .nil := by
  simp only [parseObjectBody]
  split
  · rename_i heq
    rw [List.cons.injEq] at heq
    exact absurd heq.1 h
  · rfl

theorem numStop_comma (X : List Char) : numStop (',' :: X) := by
  refine ⟨?_, ?_, ?_, ?_⟩ <;> decide

theorem numStop_rbracket (X : List Char) : numStop (']' :: X) := by
  refine ⟨?_, ?_, ?_, ?_⟩ <;> decide

theorem numStop_rbrace (X : List Char) : numStop (Char.ofNat 125 :: X) := by
  refine ⟨?_, ?_, ?_, ?_⟩ <;> decide

theorem skipWs_comma (X : List Char) : skipWs (',' :: X) = ',' :: X :=
  skipWs_cons _ _ (by decide)

theorem skipWs_rbracket (X : List Char) : skipWs (']' :: X) = ']' :: X :=
  skipWs_cons _ _ (by decide)

theorem skipWs_rbrace (X : List Char) : skipWs (Char.ofNat 125 :: X)
    = Char.ofNat 125 :: X :=
  skipWs_cons _ _ (by decide)

theorem skipWs_colon (X : List Char) : skipWs (':' :: X) = ':' :: X :=
  skipWs_cons _ _ (by decide)

theorem skipWs_printList_cons (y : JSValue) (ytl : JSList) (T : List Char) :
    skipWs (printList (.cons y ytl) ++ T) = printList (.cons y ytl) ++ T := by
  obtain ⟨X, hX⟩ := printList_cons_shape y ytl
  rw [hX, List.append_assoc]
  obtain ⟨c, cs, hc, hws, _⟩ := printChars_head y
  rw [hc, List.cons_append, skipWs_cons _ _ hws, ← List.cons_append,
    ← hc, ← List.append_assoc]

theorem skipWs_printMembers_cons (k : String) (v : JSValue) (tl : JMembers)
    (T : List Char) :
    skipWs (printMembers (.cons k v tl) ++ T) = printMembers (.cons k v tl) ++ T := by
  obtain ⟨X, hX⟩ := printMembers_cons_shape k v tl
  rw [hX, List.cons_append, skipWs_cons _ _ (by decide)]

theorem rt_lnil : RTl .nil := by
  intro _ rest f _ hne
  exact absurd rfl hne

theorem rt_lcons (x : JSValue) (tl : JSList) (ihx : RTv x) (ihtl : RTl tl) :
    RTl (.cons x tl) := by
  intro hwf rest f hf _
  obtain ⟨f1, rfl⟩ : ∃ g, f = g + 1 := ⟨f - 1, by simp [psizeL] at hf; omega⟩
  have hwf2 : jsWF x = true ∧ jsWFList tl = true := by
    simpa [jsWFList, Bool.and_eq_true] using hwf
  have hfx : psize x ≤ f1 := by
    simp [psizeL] at hf
    omega
  cases tl with
  | nil =>
    have hshape : printList (.cons x .nil) ++ ']' :: rest
        = printChars x ++ (']' :: rest) := by
      simp [printList]
    rw [hshape]
    simp only [parseElemsLoop]
    rw [ihx hwf2.1 (']' :: rest) f1 hfx (numStop_rbracket rest)]
    simp [skipWs_rbracket]
  | cons y ytl =>
    have hshape : printList (.cons x (.cons y ytl)) ++ ']' :: rest
        = printChars x ++ (',' :: (printList (.cons y ytl) ++ ']' :: rest)) := by
      simp [printList]
    rw [hshape]
    simp only [parseElemsLoop]
    rw [ihx hwf2.1 _ f1 hfx (numStop_comma _)]
    have hftl : psizeL (.cons y ytl) ≤ f1 := by
      simp [psizeL] at hf ⊢
      omega
    simp [skipWs_comma, skipWs_printList_cons,
      ihtl hwf2.2 rest f1 hftl (by simp)]

theorem rt_arr (l : JSList) (ih : RTl l) : RTv (.jarr l) := by
  intro hwf rest f hf _
  obtain ⟨f1, rfl⟩ : ∃ g, f = g + 1 := ⟨f - 1, by simp [psize] at hf; omega⟩
  have hwfl : jsWFList l = true := by
    simpa [jsWF] using hwf
  have hshape : printChars (.jarr l) ++ rest = '[' :: (printList l ++ ']' :: rest) := by
    simp [printChars]
  rw [hshape]
  simp only [parseValue, if_neg (by decide : ¬('[' = '"')),
    if_neg (by decide : ¬('[' = Char.ofNat 123)), if_pos (rfl : '[' = '[')]
  obtain ⟨f2, rfl⟩ : ∃ g, f1 = g + 1 := ⟨f1 - 1, by simp [psize] at hf; omega⟩
  cases l with
  | nil =>
    rw [show printList .nil ++ ']' :: rest = ']' :: rest from rfl]
    rw [skipWs_rbracket]
    rfl
  | cons y ytl =>
    rw [skipWs_printList_cons]
    obtain ⟨c, cs, hc, _, hnb, _⟩ := printChars_head y
    obtain ⟨X, hX⟩ := printList_cons_shape y ytl
    have hcons : printList (.cons y ytl) ++ ']' :: rest
        = c :: (cs ++ X ++ ']' :: rest) := by
      rw [hX, hc]
      simp
    rw [hcons, parseArrayBody_cons f2 c _ hnb, ← hcons]
    have hfl : psizeL (.cons y ytl) ≤ f2 := by
      simp [psize, psizeL] at hf ⊢
      omega
    rw [ih hwfl rest f2 hfl (by simp)]
    simp

theorem rt_mnil : RTm .nil := by
  intro _ _ _ _ _ hne _
  exact absurd rfl hne

theorem rt_mcons (k : String) (v : JSValue) (tl : JMembers)
    (ihv : RTv v) (ihtl : RTm tl) : RTm (.cons k v tl) := by
  intro hwf acc rest f hf _ hdisj
  obtain ⟨f1, rfl⟩ : ∃ g, f = g + 1 := ⟨f - 1, by simp [psizeM] at hf; omega⟩
  have hwf2 : tl.hasKey k = false ∧ jsWF v = true ∧ jsWFMembers tl = true := by
    have hx := hwf
    simp only [jsWFMembers, Bool.and_eq_true, Bool.not_eq_true'] at hx
    exact ⟨hx.1.1, hx.1.2, hx.2⟩
  have hfv : psize v ≤ f1 := by
    simp [psizeM] at hf
    omega
  have hselfkey : (JMembers.cons k v tl).hasKey k = true := by
    simp [JMembers.hasKey, jLookup]
  have hacck : acc.hasKey k = false := hdisj k hselfkey
  cases tl with
  | nil =>
    have hshape : printMembers (.cons k v .nil) ++ Char.ofNat 125 :: rest
        = '"' :: (escapeChars k.data ++ '"' ::
            (':' :: (printChars v ++ Char.ofNat 125 :: rest))) := by
      simp [printMembers, strLit]
    rw [hshape]
    simp only [parseMembersLoop]
    have hfuel : k.data.length
        < (escapeChars k.data ++ '"' ::
            (':' :: (printChars v ++ Char.ofNat 125 :: rest))).length + 1 := by
      have := escapeChars_length_ge k.data
      simp only [List.length_append, List.length_cons]
      omega
    rw [parseStringBody_print k.data _ _ hfuel]
    have hmk : String.mk k.data = k := rfl
    simp [skipWs_colon, skipWs_printChars,
      ihv hwf2.2.1 _ f1 hfv (numStop_rbrace rest), skipWs_rbrace, hmk,
      jsInsert_fresh acc k v hacck]
  | cons k2 v2 ttl =>
    have hshape : printMembers (.cons k v (.cons k2 v2 ttl)) ++ Char.ofNat 125 :: rest
        = '"' :: (escapeChars k.data ++ '"' ::
            (':' :: (printChars v ++ ',' ::
              (printMembers (.cons k2 v2 ttl) ++ Char.ofNat 125 :: rest)))) := by
      simp [printMembers, strLit]
    rw [hshape]
    simp only [parseMembersLoop]
    have hfuel : k.data.length
        < (escapeChars k.data ++ '"' ::
            (':' :: (printChars v ++ ',' ::
              (printMembers (.cons k2 v2 ttl) ++ Char.ofNat 125 :: rest)))).length + 1 := by
      have := escapeChars_length_ge k.data
      simp only [List.length_append, List.length_cons]
      omega
    rw [parseStringBody_print k.data _ _ hfuel]
    have hmk : String.mk k.data = k := rfl
    have hftl : psizeM (.cons k2 v2 ttl) ≤ f1 := by
      simp [psizeM] at hf ⊢
      omega
    have hdisj2 : ∀ k3, (JMembers.cons k2 v2 ttl).hasKey k3 = true →
        (jsInsert acc k v).hasKey k3 = false := by
      intro k3 hk3
      rw [jsInsert_fresh acc k v hacck, hasKey_append]
      have h1 : acc.hasKey k3 = false := by
        apply hdisj
        simp only [JMembers.hasKey, jLookup] at hk3 ⊢
        by_cases hk : k = k3
        · simp [hk]
        · rw [if_neg hk]
          exact hk3
      have h2 : k ≠ k3 := by
        intro hx
        subst hx
        rw [hwf2.1] at hk3
        exact Bool.false_ne_true hk3
      have h3 : (JMembers.cons k v .nil).hasKey k3 = false := by
        simp only [JMembers.hasKey, jLookup]
        rw [if_neg h2]
        rfl
      rw [h1, h3]
      rfl
    have hrec := ihtl hwf2.2.2 (jsInsert acc k v) rest f1 hftl (by simp) hdisj2
    rw [jsInsert_fresh acc k v hacck] at hrec
    simp only [skipWs_colon, skipWs_printChars,
      ihv hwf2.2.1 _ f1 hfv (numStop_comma _), skipWs_comma,
      skipWs_printMembers_cons, hmk,
      jsInsert_fresh acc k v hacck]
    rw [hrec, append_cons_assoc]

theorem rt_obj (ms : JMembers) (ih : RTm ms) : RTv (.jobj ms) := by
  intro hwf rest f hf _
  obtain ⟨f1, rfl⟩ : ∃ g, f = g + 1 := ⟨f - 1, by simp [psize] at hf; omega⟩
  have hwfm : jsWFMembers ms = true := by
    simpa [jsWF] using hwf
  have hshape : printChars (.jobj ms) ++ rest
      = Char.ofNat 123 :: (printMembers ms ++ Char.ofNat 125 :: rest) := by
    simp [printChars]
  rw [hshape]
  simp only [parseValue, if_neg (by decide : ¬(Char.ofNat 123 = '"')),
    if_pos (rfl : Char.ofNat 123 = Char.ofNat 123)]
  obtain ⟨f2, rfl⟩ : ∃ g, f1 = g + 1 := ⟨f1 - 1, by simp [psize] at hf; omega⟩
  cases ms with
  | nil =>
    rw [show printMembers .nil ++ Char.ofNat 125 :: rest
      = Char.ofNat 125 :: rest from rfl]
    rw [skipWs_rbrace]
    rfl
  | cons k2 v2 ttl =>
    rw [skipWs_printMembers_cons]
    obtain ⟨X, hX⟩ := printMembers_cons_shape k2 v2 ttl
    have hcons : printMembers (.cons k2 v2 ttl) ++ Char.ofNat 125 :: rest
        = '"' :: (escapeChars k2.data ++ '"' :: X ++ Char.ofNat 125 :: rest) := by
      rw [hX]
      simp
    rw [hcons, parseObjectBody_cons f2 '"' _ (by decide), ← hcons]
    have hfm : psizeM (.cons k2 v2 ttl) ≤ f2 := by
      simp [psize, psizeM] at hf ⊢
      omega
    have hres := ih hwfm .nil rest f2 hfm (by simp)
      (fun k hk => by simp [JMembers.hasKey, jLookup])
    rw [hres, JMembers.nil_append]
    simp

theorem roundtrip_all : (∀ v, RTv v) ∧ (∀ l, RTl l) ∧ (∀ ms, RTm ms) :=
  jsMutualInd RTv RTl RTm rt_null rt_bool rt_num rt_str rt_arr rt_obj
    rt_lnil rt_lcons rt_mnil rt_mcons

/-- The serializer/parser round-trip: `JSON.parse` inverts `JSON.stringify`
on every well-formed JSON value. -/
theorem jsonParse_stringify (v : JSValue) (hwf : jsWF v = true) :
    jsonParse (jsonStringify v) = some v := by
  unfold jsonParse
  have hdata : (jsonStringify v).data = printChars v := rfl
  have hlen : (jsonStringify v).length = (printChars v).length := rfl
  rw [hdata, hlen]
  have hskip : skipWs (printChars v) = printChars v := by
    have h := skipWs_printChars v []
    simpa using h
  rw [hskip]
  have hfuel : psize v ≤ 3 * (printChars v).length + 3 := by
    have := psize_le_print.1 v
    omega
  have hrt := roundtrip_all.1 v hwf [] (3 * (printChars v).length + 3) hfuel trivial
  rw [List.append_nil] at hrt
  rw [hrt]
  rfl

/-! ## Claim support: direct-parse behaviour of `parseJsonFromString` -/

/-- Whether the fenced-block capture of `t` (if any) parses as JSON — the
condition under which `parseJsonFromString` lets the fence interior replace
the whole text. -/
def fenceYieldsJson (t : String) : Bool :=
  match fenceExtract t with
  | some cap => (jsonParse (jsTrim cap)).isSome
  | none => false

theorem jsTrimL_sandwich (a b : Char) (X : List Char)
    (ha : jsWsChar a = false) (hb : jsWsChar b = false) :
    jsTrimL (a :: (X ++ [b])) = a :: (X ++ [b]) := by
  unfold jsTrimL dropTrailing
  rw [List.dropWhile_cons]
  simp only [ha, Bool.false_eq_true, if_false]
  have hrev : (a :: (X ++ [b])).reverse = b :: (X.reverse ++ [a]) := by
    simp
  rw [hrev, List.dropWhile_cons]
  simp only [hb, Bool.false_eq_true, if_false]
  simp

theorem parseJsonFromString_direct (s : String) (v : JSValue)
    (htrim : jsTrim s = s) (hqw : isQuoteWrapped s = false)
    (hfence : fenceYieldsJson s = false) (hparse : jsonParse s = some v) :
    parseJsonFromString s = some v := by
  unfold parseJsonFromString parseJsonFromStringF
  simp only [htrim, hqw, Bool.false_eq_true, if_false]
  unfold fenceYieldsJson at hfence
  rcases hfe : fenceExtract s with _ | cap
  · simp only at hfence ⊢
    rw [hparse]
  · rw [hfe] at hfence
    simp only at hfence ⊢
    have hnone : jsonParse (jsTrim cap) = none := by
      rcases hx : jsonParse (jsTrim cap) with _ | w
      · rfl
      · rw [hx] at hfence
        simp at hfence
    rw [hnone, hparse]

/-- The printed form of an object or array document: head and last character. -/
theorem jsonStringify_container_shape (D : JSValue)
    (hshape : (∃ ms, D = .jobj ms) ∨ (∃ l, D = .jarr l)) :
    ∃ a X b, (jsonStringify D).data = a :: (X ++ [b]) ∧
      jsWsChar a = false ∧ jsWsChar b = false ∧
      a ≠ '"' ∧ a ≠ Char.ofNat 39 := by
  rcases hshape with ⟨ms, rfl⟩ | ⟨l, rfl⟩
  · refine ⟨Char.ofNat 123, printMembers ms, Char.ofNat 125,
      by simp [jsonStringify, printChars], ?_, ?_, ?_, ?_⟩ <;> decide
  · refine ⟨'[', printList l, ']',
      by simp [jsonStringify, printChars], ?_, ?_, ?_, ?_⟩ <;> decide

theorem container_trim_and_quote (D : JSValue)
    (hshape : (∃ ms, D = .jobj ms) ∨ (∃ l, D = .jarr l)) :
    jsTrim (jsonStringify D) = jsonStringify D ∧
      isQuoteWrapped (jsonStringify D) = false := by
  obtain ⟨a, X, b, hdata, ha, hb, haq, has⟩ := jsonStringify_container_shape D hshape
  constructor
  · unfold jsTrim
    rw [hdata, jsTrimL_sandwich a b X ha hb, ← hdata]
  · unfold isQuoteWrapped
    rw [hdata]
    simp [haq, has]

/-- C1: for every well-formed object/array document whose serialization's
fenced capture (if any) is not itself parseable JSON, the normalizer
round-trips: `normalizeInput (JSON.stringify D)` yields document `D`.
The fence condition is forced: a parseable fenced capture inside a string
field replaces the whole document (see the counterexample). -/
theorem c1_roundtrip_amended (D : JSValue) (hwf : jsWF D = true)
    (hshape : (∃ ms, D = .jobj ms) ∨ (∃ l, D = .jarr l))
    (hfence : fenceYieldsJson (jsonStringify D) = false) :
    normalizeInput (.jstr (jsonStringify D)) = ⟨some D, none⟩ := by
  obtain ⟨htrim, hqw⟩ := container_trim_and_quote D hshape
  have hdirect := parseJsonFromString_direct (jsonStringify D) D htrim hqw hfence
    (jsonParse_stringify D hwf)
  simp only [normalizeInput, hdirect]

/-- The document of the C1 counterexample: one string field containing a
parseable fenced block. -/
def c1Doc : JSValue := .jobj (.cons "notes" (.jstr "``` 1 ```") .nil)

/-- C1 counterexample: the fenced `1` inside the `notes` string hijacks the
parse, so the round-trip returns the number `1` instead of the document. -/
theorem c1_counterexample :
    normalizeInput (.jstr (jsonStringify c1Doc)) = ⟨some (.jnum ⟨1, 0⟩), none⟩
      ∧ JSValue.jnum ⟨1, 0⟩ ≠ c1Doc :=
  ⟨rfl, fun h => JSValue.noConfusion h⟩

/-- The well-formed witness document for C1. -/
def c1WitnessDoc : JSValue :=
  .jobj (.cons "recommendations" (.jarr .nil)
    (.cons "notes" (.jstr "household setup") .nil))

/-- C1 witness: the amended round-trip at a concrete document. -/
theorem c1_witness :
    jsWF c1WitnessDoc = true
      ∧ fenceYieldsJson (jsonStringify c1WitnessDoc) = false
      ∧ normalizeInput (.jstr (jsonStringify c1WitnessDoc))
          = ⟨some c1WitnessDoc, none⟩ :=
  ⟨rfl, rfl, c1_roundtrip_amended c1WitnessDoc rfl
    (Or.inl ⟨_, rfl⟩) rfl⟩

/-! ## Claim C2 support: the normalizer in an exception monad

`jsonParseE` throws (as `Except.error`) exactly when `JSON.parse` throws;
the `E`-suffixed functions mirror the JS try/catch placement with
`tryCatch`. Proving them equal to `.ok` of the plain versions shows no
parse failure escapes the normalizer. `JSON.stringify` is total on JSON
values (no cycles, no BigInt), so its uses cannot throw in the model. -/

/-- `JSON.parse` with its `SyntaxError`. -/
def jsonParseE (s : String) : Except String JSValue :=
  match jsonParse s with
  | some v => .ok v
  | none => .error "SyntaxError"

/-- `parseJsonFromString` with explicit exceptions and the source's two
try/catch blocks. -/
def parseJsonFromStringFE : Nat → String → Except String (Option JSValue)
  | 0, _ => .ok none
  | f + 1, input => do
    let s := jsTrim input
    let step1 : Option JSValue × String ←
      if isQuoteWrapped s then
        tryCatch
          (do
            let decoded ← jsonParseE s
            match decoded with
            | .jstr d =>
              let again ← parseJsonFromStringFE f d
              match again with
              | some v => pure (some v, input)
              | none => pure ((none : Option JSValue), d)
            | _ => pure ((none : Option JSValue), input))
          (fun _ => pure ((none : Option JSValue), input))
      else pure ((none : Option JSValue), input)
    match step1.1 with
    | some v => pure (some v)
    | none =>
      let text := jsTrim step1.2
      let candidate :=
        match fenceExtract text with
        | some cap => jsTrim cap
        | none => text
      tryCatch
        (do
          let v ← jsonParseE candidate
          pure (some v))
        (fun _ =>
          tryCatch
            (do
              let v ← jsonParseE text
              pure (some v))
            (fun _ => pure none))

theorem parseJsonFromStringFE_ok :
    ∀ (f : Nat) (s : String),
      parseJsonFromStringFE f s = .ok (parseJsonFromStringF f s) := by
  intro f
  induction f with
  | zero => intro s; rfl
  | succ f ih =>
    intro s
    simp only [parseJsonFromStringFE, parseJsonFromStringF]
    by_cases hq : isQuoteWrapped (jsTrim s) = true
    · rw [if_pos hq, if_pos hq]
      rcases hp : jsonParse (jsTrim s) with _ | v
      · rcases hfe : fenceExtract (jsTrim s) with _ | cap
        · simp [tryCatch, tryCatchThe, MonadExceptOf.tryCatch, Except.tryCatch,
            bind, Except.bind, pure, Except.pure, jsonParseE, hp, hfe]
        · rcases hc : jsonParse (jsTrim cap) with _ | u <;>
            simp [tryCatch, tryCatchThe, MonadExceptOf.tryCatch, Except.tryCatch,
              bind, Except.bind, pure, Except.pure, jsonParseE, hp, hfe, hc]
      · cases v with
        | jstr d =>
          rcases hr : parseJsonFromStringF f d with _ | w
          · rcases hfe : fenceExtract (jsTrim d) with _ | cap
            · rcases ht : jsonParse (jsTrim d) with _ | u <;>
                simp [tryCatch, tryCatchThe, MonadExceptOf.tryCatch,
                  Except.tryCatch, bind, Except.bind, pure, Except.pure,
                  jsonParseE, hp, hfe, ht, ih, hr]
            · rcases hc : jsonParse (jsTrim cap) with _ | u <;>
                rcases ht : jsonParse (jsTrim d) with _ | u2 <;>
                simp [tryCatch, tryCatchThe, MonadExceptOf.tryCatch,
                  Except.tryCatch, bind, Except.bind, pure, Except.pure,
                  jsonParseE, hp, hfe, hc, ht, ih, hr]
          · simp [tryCatch, tryCatchThe, MonadExceptOf.tryCatch, Except.tryCatch,
              bind, Except.bind, pure, Except.pure, jsonParseE, hp, ih, hr]
        | jnull =>
          rcases hfe : fenceExtract (jsTrim s) with _ | cap
          · simp [tryCatch, tryCatchThe, MonadExceptOf.tryCatch, Except.tryCatch,
              bind, Except.bind, pure, Except.pure, jsonParseE, hp, hfe]
          · rcases hc : jsonParse (jsTrim cap) with _ | u <;>
              simp [tryCatch, tryCatchThe, MonadExceptOf.tryCatch, Except.tryCatch,
                bind, Except.bind, pure, Except.pure, jsonParseE, hp, hfe, hc]
        | jbool b =>
          rcases hfe : fenceExtract (jsTrim s) with _ | cap
          · simp [tryCatch, tryCatchThe, MonadExceptOf.tryCatch, Except.tryCatch,
              bind, Except.bind, pure, Except.pure, jsonParseE, hp, hfe]
          · rcases hc : jsonParse (jsTrim cap) with _ | u <;>
              simp [tryCatch, tryCatchThe, MonadExceptOf.tryCatch, Except.tryCatch,
                bind, Except.bind, pure, Except.pure, jsonParseE, hp, hfe, hc]
        | jnum d =>
          rcases hfe : fenceExtract (jsTrim s) with _ | cap
          · simp [tryCatch, tryCatchThe, MonadExceptOf.tryCatch, Except.tryCatch,
              bind, Except.bind, pure, Except.pure, jsonParseE, hp, hfe]
          · rcases hc : jsonParse (jsTrim cap) with _ | u <;>
              simp [tryCatch, tryCatchThe, MonadExceptOf.tryCatch, Except.tryCatch,
                bind, Except.bind, pure, Except.pure, jsonParseE, hp, hfe, hc]
        | jarr l =>
          rcases hfe : fenceExtract (jsTrim s) with _ | cap
          · simp [tryCatch, tryCatchThe, MonadExceptOf.tryCatch, Except.tryCatch,
              bind, Except.bind, pure, Except.pure, jsonParseE, hp, hfe]
          · rcases hc : jsonParse (jsTrim cap) with _ | u <;>
              simp [tryCatch, tryCatchThe, MonadExceptOf.tryCatch, Except.tryCatch,
                bind, Except.bind, pure, Except.pure, jsonParseE, hp, hfe, hc]
        | jobj ms =>
          rcases hfe : fenceExtract (jsTrim s) with _ | cap
          · simp [tryCatch, tryCatchThe, MonadExceptOf.tryCatch, Except.tryCatch,
              bind, Except.bind, pure, Except.pure, jsonParseE, hp, hfe]
          · rcases hc : jsonParse (jsTrim cap) with _ | u <;>
              simp [tryCatch, tryCatchThe, MonadExceptOf.tryCatch, Except.tryCatch,
                bind, Except.bind, pure, Except.pure, jsonParseE, hp, hfe, hc]
    · rw [if_neg hq, if_neg hq]
      rcases hfe : fenceExtract (jsTrim s) with _ | cap
      · rcases ht : jsonParse (jsTrim s) with _ | u <;>
          simp [tryCatch, tryCatchThe, MonadExceptOf.tryCatch, Except.tryCatch,
            bind, Except.bind, pure, Except.pure, jsonParseE, hfe, ht]
      · rcases hc : jsonParse (jsTrim cap) with _ | u <;>
          rcases ht : jsonParse (jsTrim s) with _ | u2 <;>
          simp [tryCatch, tryCatchThe, MonadExceptOf.tryCatch, Except.tryCatch,
            bind, Except.bind, pure, Except.pure, jsonParseE, hfe, hc, ht]

/-- `parseJsonFromString` with explicit exceptions. -/
def parseJsonFromStringE (input : String) : Except String (Option JSValue) :=
  parseJsonFromStringFE (input.length + 1) input

theorem parseJsonFromStringE_ok (s : String) :
    parseJsonFromStringE s = .ok (parseJsonFromString s) :=
  parseJsonFromStringFE_ok (s.length + 1) s

/-- Stage 2 of `parseModelJson` with exceptions (`return JSON.parse(trimmed)`
inside try/catch; a returned `null` is the function's `null` result). -/
def pmjDirectE (trimmed : String) : Except String (Option (Option JSValue)) :=
  tryCatch
    (do
      let v ← jsonParseE trimmed
      match v with
      | .jnull => pure (some none)
      | w => pure (some (some w)))
    (fun _ => pure none)

theorem pmjDirectE_ok (s : String) : pmjDirectE s = .ok (pmjDirect s) := by
  rcases hp : jsonParse s with _ | u
  · simp [pmjDirectE, pmjDirect, jsonParseE, hp, tryCatch, tryCatchThe,
      MonadExceptOf.tryCatch, Except.tryCatch, bind, Except.bind, pure,
      Except.pure]
  · cases u <;>
      simp [pmjDirectE, pmjDirect, jsonParseE, hp, tryCatch, tryCatchThe,
        MonadExceptOf.tryCatch, Except.tryCatch, bind, Except.bind, pure,
        Except.pure]

/-- Stage 3 of `parseModelJson` with exceptions. -/
def pmjFenceE (trimmed : String) : Except String (Option (Option JSValue)) :=
  match fenceExtract trimmed with
  | some cap =>
    if jsTrim cap = "" then pure none
    else
      tryCatch
        (do
          let v ← jsonParseE (jsTrim cap)
          match v with
          | .jnull => pure (some none)
          | w => pure (some (some w)))
        (fun _ => pure none)
  | none => pure none

theorem pmjFenceE_ok (s : String) : pmjFenceE s = .ok (pmjFence s) := by
  rcases hfe : fenceExtract s with _ | cap
  · simp [pmjFenceE, pmjFence, hfe, pure, Except.pure]
  · by_cases hcap : jsTrim cap = ""
    · simp [pmjFenceE, pmjFence, hfe, hcap, pure, Except.pure]
    · rcases hc : jsonParse (jsTrim cap) with _ | u
      · simp [pmjFenceE, pmjFence, jsonParseE, hfe, hcap, hc, tryCatch,
          tryCatchThe, MonadExceptOf.tryCatch, Except.tryCatch, bind,
          Except.bind, pure, Except.pure]
      · cases u <;>
          simp [pmjFenceE, pmjFence, jsonParseE, hfe, hcap, hc, tryCatch,
            tryCatchThe, MonadExceptOf.tryCatch, Except.tryCatch, bind,
            Except.bind, pure, Except.pure]

/-- Stage 4 of `parseModelJson` with exceptions. -/
def pmjBracketE (trimmed : String) : Except String (Option (Option JSValue)) :=
  let firstObj := indexOfChar '{' trimmed.data
  let firstArr := indexOfChar '[' trimmed.data
  let start : Option Nat :=
    match firstObj, firstArr with
    | none, fa => fa
    | some fo, none => some fo
    | some fo, some fa => some (min fo fa)
  match start with
  | none => pure none
  | some st =>
    tryCatch
      (do
        let v ← jsonParseE (jsTrim (String.mk (trimmed.data.drop st)))
        match v with
        | .jnull => pure (some none)
        | w => pure (some (some w)))
      (fun _ => pure none)

theorem pmjBracketE_ok (s : String) : pmjBracketE s = .ok (pmjBracket s) := by
  simp only [pmjBracketE, pmjBracket]
  rcases indexOfChar '{' s.data with _ | fo <;>
    rcases indexOfChar '[' s.data with _ | fa
  · simp [pure, Except.pure]
  · rcases hc : jsonParse (jsTrim (String.mk (s.data.drop fa))) with _ | u
    · simp [jsonParseE, hc, tryCatch, tryCatchThe, MonadExceptOf.tryCatch,
        Except.tryCatch, bind, Except.bind, pure, Except.pure]
    · cases u <;>
        simp [jsonParseE, hc, tryCatch, tryCatchThe, MonadExceptOf.tryCatch,
          Except.tryCatch, bind, Except.bind, pure, Except.pure]
  · rcases hc : jsonParse (jsTrim (String.mk (s.data.drop fo))) with _ | u
    · simp [jsonParseE, hc, tryCatch, tryCatchThe, MonadExceptOf.tryCatch,
        Except.tryCatch, bind, Except.bind, pure, Except.pure]
    · cases u <;>
        simp [jsonParseE, hc, tryCatch, tryCatchThe, MonadExceptOf.tryCatch,
          Except.tryCatch, bind, Except.bind, pure, Except.pure]
  · rcases hc : jsonParse (jsTrim (String.mk (s.data.drop (min fo fa)))) with _ | u
    · simp [jsonParseE, hc, tryCatch, tryCatchThe, MonadExceptOf.tryCatch,
        Except.tryCatch, bind, Except.bind, pure, Except.pure]
    · cases u <;>
        simp [jsonParseE, hc, tryCatch, tryCatchThe, MonadExceptOf.tryCatch,
          Except.tryCatch, bind, Except.bind, pure, Except.pure]

/-- `parseModelJson` with explicit exceptions and the source's four
try/catch blocks. -/
def parseModelJsonFE : Nat → String → Except String (Option JSValue)
  | 0, _ => .ok none
  | f + 1, text =>
    if text = "" then pure none
    else do
      let trimmed := jsTrim text
      let step1 : Option (Option JSValue) ←
        if isQuoteWrapped trimmed then
          tryCatch
            (do
              let decoded ← jsonParseE trimmed
              match decoded with
              | .jstr d => do
                let inner ← parseModelJsonFE f d
                match inner with
                | some v => pure (some (some v))
                | none => do
                  let again ← parseModelJsonFE f d
                  pure (some again)
              | _ => pure none)
            (fun _ => pure none)
        else pure none
      match step1 with
      | some r => pure r
      | none => do
        let s2 ← pmjDirectE trimmed
        match s2 with
        | some r => pure r
        | none => do
          let s3 ← pmjFenceE trimmed
          match s3 with
          | some r => pure r
          | none => do
            let s4 ← pmjBracketE trimmed
            match s4 with
            | some r => pure r
            | none => pure none

theorem parseModelJsonFE_ok :
    ∀ (f : Nat) (s : String),
      parseModelJsonFE f s = .ok (parseModelJsonF f s) := by
  intro f
  induction f with
  | zero => intro s; rfl
  | succ f ih =>
    intro s
    simp only [parseModelJsonFE, parseModelJsonF]
    by_cases he : s = ""
    · rw [if_pos he, if_pos he]; rfl
    · rw [if_neg he, if_neg he]
      simp only [pmjDirectE_ok, pmjFenceE_ok, pmjBracketE_ok, ih]
      by_cases hq : isQuoteWrapped (jsTrim s) = true
      · rw [if_pos hq, if_pos hq]
        rcases hp : jsonParse (jsTrim s) with _ | v
        · simp [jsonParseE, hp, tryCatch, tryCatchThe, MonadExceptOf.tryCatch,
            Except.tryCatch, bind, Except.bind, pure, Except.pure]
          rcases pmjDirect (jsTrim s) with _ | r2
          · rcases pmjFence (jsTrim s) with _ | r3
            · rcases pmjBracket (jsTrim s) with _ | r4 <;> rfl
            · rfl
          · rfl
        · cases v with
          | jstr d =>
            simp [jsonParseE, hp, tryCatch, tryCatchThe, MonadExceptOf.tryCatch,
              Except.tryCatch, bind, Except.bind, pure, Except.pure, ih]
            rcases parseModelJsonF f d with _ | w <;> rfl
          | jnull =>
            simp [jsonParseE, hp, tryCatch, tryCatchThe, MonadExceptOf.tryCatch,
              Except.tryCatch, bind, Except.bind, pure, Except.pure]
            rcases pmjDirect (jsTrim s) with _ | r2
            · rcases pmjFence (jsTrim s) with _ | r3
              · rcases pmjBracket (jsTrim s) with _ | r4 <;> rfl
              · rfl
            · rfl
          | jbool b =>
            simp [jsonParseE, hp, tryCatch, tryCatchThe, MonadExceptOf.tryCatch,
              Except.tryCatch, bind, Except.bind, pure, Except.pure]
            rcases pmjDirect (jsTrim s) with _ | r2
            · rcases pmjFence (jsTrim s) with _ | r3
              · rcases pmjBracket (jsTrim s) with _ | r4 <;> rfl
              · rfl
            · rfl
          | jnum d =>
            simp [jsonParseE, hp, tryCatch, tryCatchThe, MonadExceptOf.tryCatch,
              Except.tryCatch, bind, Except.bind, pure, Except.pure]
            rcases pmjDirect (jsTrim s) with _ | r2
            · rcases pmjFence (jsTrim s) with _ | r3
              · rcases pmjBracket (jsTrim s) with _ | r4 <;> rfl
              · rfl
            · rfl
          | jarr l =>
            simp [jsonParseE, hp, tryCatch, tryCatchThe, MonadExceptOf.tryCatch,
              Except.tryCatch, bind, Except.bind, pure, Except.pure]
            rcases pmjDirect (jsTrim s) with _ | r2
            · rcases pmjFence (jsTrim s) with _ | r3
              · rcases pmjBracket (jsTrim s) with _ | r4 <;> rfl
              · rfl
            · rfl
          | jobj ms =>
            simp [jsonParseE, hp, tryCatch, tryCatchThe, MonadExceptOf.tryCatch,
              Except.tryCatch, bind, Except.bind, pure, Except.pure]
            rcases pmjDirect (jsTrim s) with _ | r2
            · rcases pmjFence (jsTrim s) with _ | r3
              · rcases pmjBracket (jsTrim s) with _ | r4 <;> rfl
              · rfl
            · rfl
      · rw [if_neg hq, if_neg hq]
        simp only [bind, Except.bind, pure, Except.pure]
        rcases pmjDirect (jsTrim s) with _ | r2
        · rcases pmjFence (jsTrim s) with _ | r3
          · rcases pmjBracket (jsTrim s) with _ | r4 <;> rfl
          · rfl
        · rfl

/-- `parseModelJson` with explicit exceptions. -/
def parseModelJsonE (text : String) : Except String (Option JSValue) :=
  parseModelJsonFE (text.length + 1) text

/-- `normalizeObjFallback` with explicit exceptions: the text branch is not
guarded; the stringify-and-reparse attempt sits in its own try/catch. -/
def normalizeObjFallbackE (ms : JMembers) : Except String NormalizedResult :=
  match jLookup ms "text" with
  | some (.jstr ts) => do
    let parsed ← parseJsonFromStringE ts
    match parsed with
    | some p => pure ⟨some p, none⟩
    | none => pure ⟨none, some ts⟩
  | _ => do
    let attempt : Option NormalizedResult ←
      tryCatch
        (do
          let parsed ← parseJsonFromStringE (jsonStringify (.jobj ms))
          match parsed with
          | some p => pure (some (⟨some p, none⟩ : NormalizedResult))
          | none => pure none)
        (fun _ => pure none)
    match attempt with
    | some r => pure r
    | none => pure ⟨none, some (jsonStringifyPretty (.jobj ms))⟩

theorem normalizeObjFallbackE_ok (ms : JMembers) :
    normalizeObjFallbackE ms = .ok (normalizeObjFallback ms) := by
  simp only [normalizeObjFallbackE, normalizeObjFallback, parseJsonFromStringE_ok]
  rcases jLookup ms "text" with _ | v
  · simp only [bind, Except.bind, tryCatch, tryCatchThe, MonadExceptOf.tryCatch,
      Except.tryCatch, pure, Except.pure]
    rcases parseJsonFromString (jsonStringify (.jobj ms)) with _ | p <;> rfl
  · cases v <;>
      simp only [bind, Except.bind, tryCatch, tryCatchThe,
        MonadExceptOf.tryCatch, Except.tryCatch, pure, Except.pure]
    case jstr ts => rcases parseJsonFromString ts with _ | p <;> rfl
    all_goals
      rcases parseJsonFromString (jsonStringify (.jobj ms)) with _ | p <;> rfl

/-- `normalizeInput` with explicit exceptions: the calls to
`parseJsonFromString` in the string/recommendations/text branches are not
themselves wrapped in any try/catch at this level. -/
def normalizeInputE : JSValue → Except String NormalizedResult
  | .jstr s => do
    let parsed ← parseJsonFromStringE s
    match parsed with
    | some p => pure ⟨some p, none⟩
    | none => pure ⟨none, some s⟩
  | .jarr l => pure ⟨some (.jarr l), none⟩
  | .jobj ms =>
    (match jLookup ms "recommendations" with
     | some (.jstr rs) => do
       let parsed ← parseJsonFromStringE rs
       match parsed with
       | some p => pure ⟨some p, none⟩
       | none => pure ⟨none, some rs⟩
     | some (.jobj rms) =>
       (match jLookup rms "text" with
        | some (.jstr ts) => do
          let parsed ← parseJsonFromStringE ts
          match parsed with
          | some p => pure ⟨some p, none⟩
          | none => pure ⟨none, some ts⟩
        | _ => pure ⟨some (.jobj rms), none⟩)
     | some (.jarr _) => pure ⟨some (.jobj ms), none⟩
     | _ => normalizeObjFallbackE ms)
  | v => pure ⟨none, some (jsonStringifyPretty v)⟩

/-- C2. For every input value whatsoever, normalization — and the
recommendations route's recovery parser — runs to completion with an
ordinary result: in the exception-explicit model every JSON-parse failure
is caught where the source catches it, and both entry points always
return `.ok` of the exception-free result, never an error. -/
theorem c2_normalizer_never_throws :
    (∀ body : JSValue, normalizeInputE body = .ok (normalizeInput body)) ∧
    (∀ s : String, parseModelJsonE s = .ok (parseModelJson s)) := by
  constructor
  · intro body
    cases body with
    | jstr s =>
      simp only [normalizeInputE, normalizeInput, parseJsonFromStringE_ok,
        bind, Except.bind, pure, Except.pure]
      rcases parseJsonFromString s with _ | p <;> rfl
    | jarr l => rfl
    | jobj ms =>
      simp only [normalizeInputE, normalizeInput]
      rcases jLookup ms "recommendations" with _ | v
      · exact normalizeObjFallbackE_ok ms
      · cases v with
        | jstr rs =>
          simp only [parseJsonFromStringE_ok, bind, Except.bind, pure,
            Except.pure]
          rcases parseJsonFromString rs with _ | p <;> rfl
        | jobj rms =>
          rcases hw : jLookup rms "text" with _ | w
          · simp [hw, pure, Except.pure]
          · cases w with
            | jstr ts =>
              simp only [hw, parseJsonFromStringE_ok, bind, Except.bind, pure,
                Except.pure]
              rcases parseJsonFromString ts with _ | p <;> rfl
            | jnull => simp [hw, pure, Except.pure]
            | jbool b => simp [hw, pure, Except.pure]
            | jnum d => simp [hw, pure, Except.pure]
            | jarr l2 => simp [hw, pure, Except.pure]
            | jobj ms2 => simp [hw, pure, Except.pure]
        | jarr rl => rfl
        | _ => exact normalizeObjFallbackE_ok ms
    | jnull => rfl
    | jbool b => rfl
    | jnum d => rfl
  · intro s
    exact parseModelJsonFE_ok (s.length + 1) s

/-! ## Claim C3: order of the recovery steps -/

/-- The recovery order the generate-pdf normalizer actually applies to a
non-quote-wrapped string: fenced capture first, whole trimmed text second,
and no leading-bracket stage. -/
def pdfRecoveryOrder (s : String) : Option JSValue :=
  match fenceExtract (jsTrim s) with
  | some cap =>
    match jsonParse (jsTrim cap) with
    | some v => some v
    | none => jsonParse (jsTrim s)
  | none => jsonParse (jsTrim s)

/-- The recovery order the recommendations route applies to a
non-quote-wrapped string: direct parse, then fenced capture, then the
earliest-bracket substring. -/
def modelRecoveryOrder (s : String) : Option JSValue :=
  match pmjDirect (jsTrim s) with
  | some r => r
  | none =>
    match pmjFence (jsTrim s) with
    | some r => r
    | none =>
      match pmjBracket (jsTrim s) with
      | some r => r
      | none => none

/-- C3 (amended). For every non-empty, non-quote-wrapped string the
generate-pdf normalizer resolves it by trying the fenced capture BEFORE
the whole trimmed text and has no leading-bracket step, while the
recommendations route's `parseModelJson` follows the claimed order
direct parse → fenced capture → earliest bracket. The claimed order
holds only for the recommendations route. -/
theorem c3_order_amended (s : String) (hs : s ≠ "")
    (hq : isQuoteWrapped (jsTrim s) = false) :
    parseJsonFromString s = pdfRecoveryOrder s ∧
    parseModelJson s = modelRecoveryOrder s := by
  constructor
  · unfold parseJsonFromString parseJsonFromStringF pdfRecoveryOrder
    simp only [hq, Bool.false_eq_true, if_false]
    rcases hfe : fenceExtract (jsTrim s) with _ | cap
    · rcases ht : jsonParse (jsTrim s) with _ | u <;> simp [hfe, ht]
    · rcases hc : jsonParse (jsTrim cap) with _ | u <;>
        rcases ht : jsonParse (jsTrim s) with _ | u2 <;> simp [hfe, hc, ht]
  · unfold parseModelJson parseModelJsonF modelRecoveryOrder
    simp only [if_neg hs, hq, Bool.false_eq_true, if_false]

/-- Witness for C3 at a concrete prose-plus-JSON string: the generate-pdf
normalizer (no bracket stage) misses the embedded object, while
`parseModelJson` recovers it. -/
theorem c3_witness :
    ("Here you go: \x7b\"a\":1\x7d" ≠ "" ∧
      isQuoteWrapped (jsTrim "Here you go: \x7b\"a\":1\x7d") = false) ∧
    (parseJsonFromString "Here you go: \x7b\"a\":1\x7d" =
        pdfRecoveryOrder "Here you go: \x7b\"a\":1\x7d" ∧
      parseModelJson "Here you go: \x7b\"a\":1\x7d" =
        modelRecoveryOrder "Here you go: \x7b\"a\":1\x7d") :=
  ⟨⟨by decide, rfl⟩,
    c3_order_amended "Here you go: \x7b\"a\":1\x7d" (by decide) rfl⟩

/-- The document whose serialization is valid JSON as a whole yet contains
a parseable fenced block in a string field. -/
def c3HijackDoc : JSValue := .jobj (.cons "notes" (.jstr "``` 2 ```") .nil)

/-- Counterexample to C3 as claimed: (i) the prose-embedded object
`Here you go: \x7b"a":1\x7d` is NOT recovered by the generate-pdf
normalizer (there is no leading-bracket step there), though the
recommendations route recovers it; (ii) a string that is valid JSON as a
whole IS replaced by the contents of a fenced block inside it, because the
fence stage runs before the direct parse. -/
theorem c3_counterexample :
    normalizeInput (.jstr "Here you go: \x7b\"a\":1\x7d") =
      ⟨none, some "Here you go: \x7b\"a\":1\x7d"⟩ ∧
    parseModelJson "Here you go: \x7b\"a\":1\x7d" =
      some (.jobj (.cons "a" (.jnum ⟨1, 0⟩) .nil)) ∧
    jsonParse (jsonStringify c3HijackDoc) = some c3HijackDoc ∧
    normalizeInput (.jstr (jsonStringify c3HijackDoc)) =
      ⟨some (.jnum ⟨2, 0⟩), none⟩ ∧
    JSValue.jnum ⟨2, 0⟩ ≠ c3HijackDoc :=
  ⟨rfl, rfl, rfl, rfl, fun h => JSValue.noConfusion h⟩

/-! ## Claim C4: exactly one of document and rawText -/

theorem normalizeObjFallback_exactly_one (ms : JMembers) :
    (∃ d, normalizeObjFallback ms = ⟨some d, none⟩) ∨
    (∃ r, normalizeObjFallback ms = ⟨none, some r⟩) := by
  rcases hw : jLookup ms "text" with _ | w
  · rcases h2 : parseJsonFromString (jsonStringify (.jobj ms)) with _ | p
    · refine Or.inr ⟨jsonStringifyPretty (.jobj ms), ?_⟩
      simp [normalizeObjFallback, hw, h2]
    · refine Or.inl ⟨p, ?_⟩; simp [normalizeObjFallback, hw, h2]
  · cases w with
    | jstr ts =>
      rcases h : parseJsonFromString ts with _ | p
      · refine Or.inr ⟨ts, ?_⟩; simp [normalizeObjFallback, hw, h]
      · refine Or.inl ⟨p, ?_⟩; simp [normalizeObjFallback, hw, h]
    | jnull =>
      rcases h2 : parseJsonFromString (jsonStringify (.jobj ms)) with _ | p
      · refine Or.inr ⟨jsonStringifyPretty (.jobj ms), ?_⟩
        simp [normalizeObjFallback, hw, h2]
      · refine Or.inl ⟨p, ?_⟩; simp [normalizeObjFallback, hw, h2]
    | jbool b =>
      rcases h2 : parseJsonFromString (jsonStringify (.jobj ms)) with _ | p
      · refine Or.inr ⟨jsonStringifyPretty (.jobj ms), ?_⟩
        simp [normalizeObjFallback, hw, h2]
      · refine Or.inl ⟨p, ?_⟩; simp [normalizeObjFallback, hw, h2]
    | jnum d =>
      rcases h2 : parseJsonFromString (jsonStringify (.jobj ms)) with _ | p
      · refine Or.inr ⟨jsonStringifyPretty (.jobj ms), ?_⟩
        simp [normalizeObjFallback, hw, h2]
      · refine Or.inl ⟨p, ?_⟩; simp [normalizeObjFallback, hw, h2]
    | jarr l2 =>
      rcases h2 : parseJsonFromString (jsonStringify (.jobj ms)) with _ | p
      · refine Or.inr ⟨jsonStringifyPretty (.jobj ms), ?_⟩
        simp [normalizeObjFallback, hw, h2]
      · refine Or.inl ⟨p, ?_⟩; simp [normalizeObjFallback, hw, h2]
    | jobj ms2 =>
      rcases h2 : parseJsonFromString (jsonStringify (.jobj ms)) with _ | p
      · refine Or.inr ⟨jsonStringifyPretty (.jobj ms), ?_⟩
        simp [normalizeObjFallback, hw, h2]
      · refine Or.inl ⟨p, ?_⟩; simp [normalizeObjFallback, hw, h2]

/-- C4. For every input value, normalization yields exactly one of the two
variants: either a structured document (and no rawText) or a rawText
string (and no document) — never both, never neither. -/
theorem c4_exactly_one (body : JSValue) :
    (∃ d, normalizeInput body = ⟨some d, none⟩) ∨
    (∃ r, normalizeInput body = ⟨none, some r⟩) := by
  cases body with
  | jstr s =>
    rcases h : parseJsonFromString s with _ | p
    · refine Or.inr ⟨s, ?_⟩; simp [normalizeInput, h]
    · refine Or.inl ⟨p, ?_⟩; simp [normalizeInput, h]
  | jarr l => exact Or.inl ⟨.jarr l, rfl⟩
  | jnull => exact Or.inr ⟨_, rfl⟩
  | jbool b => exact Or.inr ⟨_, rfl⟩
  | jnum d => exact Or.inr ⟨_, rfl⟩
  | jobj ms =>
    rcases hr : jLookup ms "recommendations" with _ | v
    · have h := normalizeObjFallback_exactly_one ms
      simp only [normalizeInput, hr]
      exact h
    · cases v with
      | jstr rs =>
        rcases h : parseJsonFromString rs with _ | p
        · refine Or.inr ⟨rs, ?_⟩; simp [normalizeInput, hr, h]
        · refine Or.inl ⟨p, ?_⟩; simp [normalizeInput, hr, h]
      | jobj rms =>
        rcases hw : jLookup rms "text" with _ | w
        · refine Or.inl ⟨.jobj rms, ?_⟩; simp [normalizeInput, hr, hw]
        · cases w with
          | jstr ts =>
            rcases h : parseJsonFromString ts with _ | p
            · refine Or.inr ⟨ts, ?_⟩; simp [normalizeInput, hr, hw, h]
            · refine Or.inl ⟨p, ?_⟩; simp [normalizeInput, hr, hw, h]
          | jnull =>
            refine Or.inl ⟨.jobj rms, ?_⟩; simp [normalizeInput, hr, hw]
          | jbool b =>
            refine Or.inl ⟨.jobj rms, ?_⟩; simp [normalizeInput, hr, hw]
          | jnum d =>
            refine Or.inl ⟨.jobj rms, ?_⟩; simp [normalizeInput, hr, hw]
          | jarr l2 =>
            refine Or.inl ⟨.jobj rms, ?_⟩; simp [normalizeInput, hr, hw]
          | jobj ms2 =>
            refine Or.inl ⟨.jobj rms, ?_⟩; simp [normalizeInput, hr, hw]
      | jarr rl => refine Or.inl ⟨.jobj ms, ?_⟩; simp [normalizeInput, hr]
      | jnull =>
        have h := normalizeObjFallback_exactly_one ms
        simp only [normalizeInput, hr]
        exact h
      | jbool b =>
        have h := normalizeObjFallback_exactly_one ms
        simp only [normalizeInput, hr]
        exact h
      | jnum d =>
        have h := normalizeObjFallback_exactly_one ms
        simp only [normalizeInput, hr]
        exact h

/-! ## Claim C5: the recommendations key and its sibling summary fields -/

/-- C5 (amended). When a parsed value is an object with a
`recommendations` key, the two routes disagree: the generate-pdf
normalizer keeps the WHOLE parsed object as the document (the
`recommendations` field and every sibling summary field are preserved
unchanged inside it), while the recommendations route's
`unwrapRecommendations` returns ONLY the key's value, discarding every
sibling field. -/
theorem c5_siblings_amended (ms : JMembers) (r : JSValue) (s : String)
    (hr : jLookup ms "recommendations" = some r)
    (hp : parseJsonFromString s = some (.jobj ms)) :
    unwrapRecommendations (.jobj ms) = r ∧
    normalizeInput (.jstr s) = ⟨some (.jobj ms), none⟩ := by
  constructor
  · simp [unwrapRecommendations, hr]
  · simp [normalizeInput, hp]

/-- The members of a parsed object with a `recommendations` array and a
sibling `notes` field. -/
def c5Members : JMembers :=
  .cons "recommendations" (.jarr .nil) (.cons "notes" (.jstr "keep me") .nil)

/-- Its serialization, a string that parses back to it. -/
def c5Str : String := jsonStringify (.jobj c5Members)

/-- Witness for C5 (amended) at the concrete object
`\x7b"recommendations": [], "notes": "keep me"\x7d`. -/
theorem c5_witness :
    (jLookup c5Members "recommendations" = some (.jarr .nil) ∧
      parseJsonFromString c5Str = some (.jobj c5Members)) ∧
    (unwrapRecommendations (.jobj c5Members) = .jarr .nil ∧
      normalizeInput (.jstr c5Str) = ⟨some (.jobj c5Members), none⟩) :=
  ⟨⟨rfl, rfl⟩, c5_siblings_amended c5Members (.jarr .nil) c5Str rfl rfl⟩

/-- Counterexample to C5 as claimed: the recommendations route's
caller-visible value for the object
`\x7b"recommendations": [], "notes": "keep me"\x7d` is the bare empty
array — not an object at all — so the sibling `notes` summary field is
not preserved alongside. -/
theorem c5_counterexample :
    routeRecommendations (some (.jobj c5Members)) "" = .jarr .nil ∧
    jLookup c5Members "notes" = some (.jstr "keep me") ∧
    (∀ ms : JMembers, JSValue.jarr .nil ≠ .jobj ms) :=
  ⟨rfl, rfl, fun _ h => JSValue.noConfusion h⟩

/-! ## Claim C6: depth of the double-encoding unwrap -/

/-- A small base document. -/
def c6Doc : JSValue := .jobj (.cons "a" (.jnum ⟨1, 0⟩) .nil)

/-- The base document JSON-string-encoded `k` extra layers deep. -/
def nestEnc : Nat → String
  | 0 => jsonStringify c6Doc
  | k + 1 => jsonStringify (.jstr (nestEnc k))

theorem nestEnc_shape (k : Nat) :
    (nestEnc (k + 1)).data = '"' :: (escapeChars (nestEnc k).data ++ ['"']) := rfl

theorem nestEnc_trim (k : Nat) : jsTrim (nestEnc (k + 1)) = nestEnc (k + 1) := by
  show String.mk (jsTrimL (nestEnc (k + 1)).data) = nestEnc (k + 1)
  rw [nestEnc_shape, jsTrimL_sandwich _ _ _ (by decide) (by decide),
    ← nestEnc_shape]

theorem nestEnc_quoteWrapped (k : Nat) :
    isQuoteWrapped (nestEnc (k + 1)) = true := by
  simp only [isQuoteWrapped, nestEnc_shape]
  have h1 : ('"' :: (escapeChars (nestEnc k).data ++ ['"'])).getLast?
      = some '"' := by
    rw [show '"' :: (escapeChars (nestEnc k).data ++ ['"'])
        = ('"' :: escapeChars (nestEnc k).data) ++ ['"'] from rfl,
      List.getLast?_concat]
  rw [h1]
  simp

theorem nestEnc_length (k : Nat) :
    (nestEnc k).length + 2 ≤ (nestEnc (k + 1)).length := by
  have h := escapeChars_length_ge (nestEnc k).data
  show _ ≤ (nestEnc (k + 1)).data.length
  rw [nestEnc_shape]
  simp only [List.length_cons, List.length_append, List.length_cons,
    List.length_nil]
  have : (nestEnc k).length = (nestEnc k).data.length := rfl
  omega

theorem c6_pjfs : ∀ (k f : Nat), (nestEnc k).length < f →
    parseJsonFromStringF f (nestEnc k) = some c6Doc := by
  intro k
  induction k with
  | zero =>
    intro f hf
    cases f with
    | zero => exact absurd hf (by decide)
    | succ f => rfl
  | succ k ih =>
    intro f hf
    cases f with
    | zero => exact absurd hf (Nat.not_lt_zero _)
    | succ f =>
      have hparse : jsonParse (nestEnc (k + 1)) = some (.jstr (nestEnc k)) :=
        jsonParse_stringify (.jstr (nestEnc k)) rfl
      have hlen : (nestEnc k).length < f := by
        have h2 := nestEnc_length k
        omega
      have hrec := ih f hlen
      simp only [parseJsonFromStringF, nestEnc_trim, nestEnc_quoteWrapped,
        if_true, hparse, hrec]

theorem c6_pmj : ∀ (k f : Nat), (nestEnc k).length < f →
    parseModelJsonF f (nestEnc k) = some c6Doc := by
  intro k
  induction k with
  | zero =>
    intro f hf
    cases f with
    | zero => exact absurd hf (by decide)
    | succ f => rfl
  | succ k ih =>
    intro f hf
    cases f with
    | zero => exact absurd hf (Nat.not_lt_zero _)
    | succ f =>
      have hne : nestEnc (k + 1) ≠ "" := by
        intro h
        have h0 : (nestEnc (k + 1)).data = [] := by rw [h]
        rw [nestEnc_shape] at h0
        exact List.noConfusion h0
      have hparse : jsonParse (nestEnc (k + 1)) = some (.jstr (nestEnc k)) :=
        jsonParse_stringify (.jstr (nestEnc k)) rfl
      have hlen : (nestEnc k).length < f := by
        have h2 := nestEnc_length k
        omega
      have hrec := ih f hlen
      simp only [parseModelJsonF, if_neg hne, nestEnc_trim,
        nestEnc_quoteWrapped, if_true, hparse, hrec]

/-- C6. There is no recursion-depth cap in either route: for EVERY
nesting depth `k`, a document JSON-string-encoded `k` extra layers deep is
fully unwrapped back to the document by both recovery parsers, and
normalization yields the document branch — never the rawText fallback —
no matter how far `k` exceeds any proposed cap. (Recursion terminates
only because each unwrap strictly shortens the string.) -/
theorem c6_no_cap_amended (k : Nat) :
    parseJsonFromString (nestEnc k) = some c6Doc ∧
    parseModelJson (nestEnc k) = some c6Doc ∧
    normalizeInput (.jstr (nestEnc k)) = ⟨some c6Doc, none⟩ := by
  have h1 : parseJsonFromString (nestEnc k) = some c6Doc :=
    c6_pjfs k ((nestEnc k).length + 1) (Nat.lt_succ_self _)
  have h2 : parseModelJson (nestEnc k) = some c6Doc :=
    c6_pmj k ((nestEnc k).length + 1) (Nat.lt_succ_self _)
  refine ⟨h1, h2, ?_⟩
  simp [normalizeInput, h1]

set_option maxRecDepth 8000 in
/-- Counterexample to C6 as claimed: at depth 6 — beyond the claimed
example cap of 5 — normalization still returns the fully unwrapped
document and no rawText fallback. -/
theorem c6_counterexample :
    normalizeInput (.jstr (nestEnc 6)) = ⟨some c6Doc, none⟩ ∧
    (normalizeInput (.jstr (nestEnc 6))).rawText = none := by
  have h1 : parseJsonFromString (nestEnc 6) = some c6Doc :=
    c6_pjfs 6 ((nestEnc 6).length + 1) (Nat.lt_succ_self _)
  have h2 : normalizeInput (.jstr (nestEnc 6)) = ⟨some c6Doc, none⟩ := by
    simp [normalizeInput, h1]
  exact ⟨h2, by rw [h2]⟩

/-! ## Claim C7: money coercion and display -/

/-- A width function that never forces a wrap (every width 0). -/
def wf0 : WidthFn := fun _ _ => 0

/-- A document with one item: `$12,500` initial (string) and `430`
monthly (number). -/
def c7Doc : JSValue :=
  .jobj (.cons "recommendations"
    (.jarr (.cons (.jobj (.cons "serviceName" (.jstr "Housing")
      (.cons "estimatedInitialCost" (.jstr "$12,500")
        (.cons "estimatedMonthlyCost" (.jnum ⟨430, 0⟩) .nil)))) .nil)) .nil)

/-- The same document with an unparseable initial cost. -/
def c7BadDoc : JSValue :=
  .jobj (.cons "recommendations"
    (.jarr (.cons (.jobj (.cons "serviceName" (.jstr "Housing")
      (.cons "estimatedInitialCost" (.jstr "abc")
        (.cons "estimatedMonthlyCost" (.jnum ⟨430, 0⟩) .nil)))) .nil)) .nil)

/-- C7. Money display: numbers pass through coercion unchanged; a money
line is rendered exactly when coercion yields a finite number (so an
unparseable value is omitted entirely, never shown as 0 or NaN); the
string `"$12,500"` — after `$`/`,` stripping — renders the line
`Initial Cost: $12,500`, and the number `430` renders
`Monthly Cost: $430`; with the initial cost unparseable, no
`Initial Cost:` line appears at all while the monthly line still does. -/
theorem c7_money :
    (∀ d : JDec, coerceNumber (some (.jnum d)) = some d) ∧
    (∀ v : Option JSValue, (formatMoney v).isSome = (coerceNumber v).isSome) ∧
    formatMoney (some (.jstr "$12,500")) = some "$12,500" ∧
    formatMoney (some (.jnum ⟨430, 0⟩)) = some "$430" ∧
    coerceNumber (some (.jstr "abc")) = none ∧
    "Initial Cost: $12,500" ∈ (renderDoc wf0 wf0 "d" c7Doc).ops.map Op.text ∧
    "Monthly Cost: $430" ∈ (renderDoc wf0 wf0 "d" c7Doc).ops.map Op.text ∧
    (renderDoc wf0 wf0 "d" c7BadDoc).ops.all
      (fun op => decide (op.text.data.take 13 ≠ "Initial Cost:".data)) = true ∧
    "Monthly Cost: $430" ∈ (renderDoc wf0 wf0 "d" c7BadDoc).ops.map Op.text := by
  constructor
  · exact fun d => rfl
  constructor
  · intro v
    rcases h : coerceNumber v with _ | n <;> simp [formatMoney, h]
  refine ⟨?_, ?_, ?_, ?_, ?_, ?_, ?_⟩ <;> decide

/-! ## Claim C8: no drawn line below the bottom margin

Every `page.drawText` in the pipeline is immediately preceded by an
`ensureSpace` with a nonnegative height, and `ensureSpace` leaves the
cursor either at least `needed` above the bottom margin or at the top of
a fresh page — so every recorded op sits at or above the margin. -/

/-- All recorded draw calls sit at or above the bottom margin. -/
def opsOK (l : List Op) : Prop := ∀ op ∈ l, bottomMargin ≤ op.y

theorem ensureSpace_ops (n : Int) (st : RState) :
    (ensureSpace n st).ops = st.ops := by
  unfold ensureSpace newPage
  split <;> rfl

theorem ensureSpace_y (n : Int) (st : RState) (hn : 0 ≤ n) :
    bottomMargin ≤ (ensureSpace n st).y := by
  unfold ensureSpace
  by_cases h : st.y - n < bottomMargin
  · rw [if_pos h]
    show bottomMargin ≤ PAGE_H - 50 * SC
    decide
  · rw [if_neg h]
    omega

theorem opsOK_drawLine (x size lh : Int) (t : String) (st : RState)
    (hlh : 0 ≤ lh) (h : opsOK st.ops) :
    opsOK (drawLine x size lh t st).ops := by
  intro op hop
  simp only [drawLine, draw, ensureSpace_ops] at hop
  rcases List.mem_append.mp hop with h1 | h2
  · exact h op h1
  · rcases List.mem_singleton.mp h2 with rfl
    exact ensureSpace_y lh st hlh

theorem opsOK_wrapLoop (w : WidthFn) (x size maxW lh : Int) (hlh : 0 ≤ lh) :
    ∀ (ws : List String) (line : String) (st : RState),
      opsOK st.ops → opsOK (wrapLoop w x size maxW lh ws line st).ops := by
  intro ws
  induction ws with
  | nil =>
    intro line st h
    simp only [wrapLoop]
    split
    · exact h
    · exact opsOK_drawLine x size lh line st hlh h
  | cons word ws ih =>
    intro line st h
    simp only [wrapLoop]
    split <;> split <;>
      first
      | exact ih _ _ (opsOK_drawLine x size lh line st hlh h)
      | exact ih _ _ h

theorem opsOK_drawParas (w : WidthFn) (x size maxW lh : Int) (hlh : 0 ≤ lh) :
    ∀ (ps : List String) (st : RState),
      opsOK st.ops → opsOK (drawParas w x size maxW lh ps st).ops := by
  intro ps
  induction ps with
  | nil => intro st h; exact h
  | cons p ps ih =>
    intro st h
    simp only [drawParas]
    refine ih _ ?_
    have h1 : opsOK ((if jsTrim p = "" then
        (⟨(ensureSpace lh st).page, (ensureSpace lh st).y - lh,
          (ensureSpace lh st).ops⟩ : RState)
        else wrapLoop w x size maxW lh (splitWs (jsTrim p)) "" st)).ops := by
      split
      · show opsOK (ensureSpace lh st).ops
        rw [ensureSpace_ops]
        exact h
      · exact opsOK_wrapLoop w x size maxW lh hlh _ _ st h
    cases ps with
    | nil => exact h1
    | cons q qs =>
      show opsOK (ensureSpace (size * 12) _).ops
      rw [ensureSpace_ops]
      exact h1

theorem opsOK_drawWrappedText (w : WidthFn) (t : String) (x size maxW : Int)
    (hs : 0 ≤ size) (st : RState) (h : opsOK st.ops) :
    opsOK (drawWrappedText w t x size maxW st).ops :=
  opsOK_drawParas w x size maxW (size * 30) (by omega) _ st h

theorem opsOK_drawHeading (t : String) (size : Int) (hs : 0 ≤ size)
    (st : RState) (h : opsOK st.ops) : opsOK (drawHeading t size st).ops := by
  intro op hop
  simp only [drawHeading, draw, ensureSpace_ops] at hop
  rcases List.mem_append.mp hop with h1 | h2
  · exact h op h1
  · rcases List.mem_singleton.mp h2 with rfl
    exact ensureSpace_y _ st (by omega)

theorem opsOK_drawDivider (st : RState) (h : opsOK st.ops) :
    opsOK (drawDivider st).ops := by
  intro op hop
  simp only [drawDivider, draw, ensureSpace_ops] at hop
  rcases List.mem_append.mp hop with h1 | h2
  · exact h op h1
  · rcases List.mem_singleton.mp h2 with rfl
    exact ensureSpace_y _ st (by decide)

theorem opsOK_drawSteps (w : WidthFn) (l : JSList) :
    ∀ (idx : Nat) (st : RState), opsOK st.ops →
      opsOK (drawSteps w idx l st).ops := by
  refine JSList.spineIndEl
    (fun l => ∀ idx st, opsOK st.ops → opsOK (drawSteps w idx l st).ops)
    ?_ ?_ l
  · intro idx st h
    exact h
  · intro x tl ih idx st h
    exact ih _ _ (opsOK_drawWrappedText w _ _ 10 _ (by decide) st h)

theorem opsOK_drawSources (w : WidthFn) (l : JSList) :
    ∀ (st : RState), opsOK st.ops → opsOK (drawSources w l st).ops := by
  refine JSList.spineIndEl
    (fun l => ∀ st, opsOK st.ops → opsOK (drawSources w l st).ops) ?_ ?_ l
  · intro st h
    exact h
  · intro x tl ih st h
    exact ih _ (opsOK_drawWrappedText w _ _ 9 _ (by decide) st h)

theorem opsOK_ensure_draw (n x size : Int) (t : String) (st : RState)
    (hn : 0 ≤ n) (h : opsOK st.ops) :
    opsOK (draw (ensureSpace n st) x size t).ops := by
  intro op hop
  simp only [draw, ensureSpace_ops] at hop
  rcases List.mem_append.mp hop with h1 | h2
  · exact h op h1
  · rcases List.mem_singleton.mp h2 with rfl
    exact ensureSpace_y _ st hn

theorem opsOK_drawRecTitle (i : Nat) (r : JSValue) (st : RState)
    (h : opsOK st.ops) : opsOK (drawRecTitle i r st).ops :=
  opsOK_ensure_draw (26 * SC) pdfMargin 14 _ st (by decide) h

theorem opsOK_drawCostLine (w : WidthFn) (pre : String) (size : Int)
    (v : Option JSValue) (st : RState) (hs : 0 ≤ size) (h : opsOK st.ops) :
    opsOK (drawCostLine w pre size v st).ops := by
  unfold drawCostLine
  split
  · exact opsOK_drawWrappedText w _ _ size _ hs st h
  · exact h

theorem opsOK_drawStepsBlock (wR wB : WidthFn) (v : Option JSValue)
    (st : RState) (h : opsOK st.ops) :
    opsOK (drawStepsBlock wR wB v st).ops := by
  unfold drawStepsBlock
  split
  · show opsOK (drawSteps wR 0 _
      (drawWrappedText wB "Steps:" pdfMargin 12 contentWidth st)).ops
    apply opsOK_drawSteps
    exact opsOK_drawWrappedText wB _ _ 12 _ (by decide) st h
  · exact h

theorem opsOK_drawSpecBlock (wR wB : WidthFn) (v : Option JSValue)
    (st : RState) (h : opsOK st.ops) :
    opsOK (drawSpecBlock wR wB v st).ops := by
  unfold drawSpecBlock
  split
  · show opsOK (drawWrappedText wR (jsOStr v) pdfMargin 10 contentWidth
      (drawWrappedText wB "Recommendations:" pdfMargin 12 contentWidth st)).ops
    apply opsOK_drawWrappedText wR _ _ 10 _ (by decide)
    exact opsOK_drawWrappedText wB _ _ 12 _ (by decide) st h
  · exact h

theorem opsOK_drawSourcesBlock (wR wB : WidthFn) (v : Option JSValue)
    (st : RState) (h : opsOK st.ops) :
    opsOK (drawSourcesBlock wR wB v st).ops := by
  unfold drawSourcesBlock
  split
  · apply opsOK_drawSources
    exact opsOK_drawWrappedText wB _ _ 12 _ (by decide) st h
  · exact h

theorem opsOK_drawOverBudgetLine (w : WidthFn) (v : Option JSValue)
    (st : RState) (h : opsOK st.ops) :
    opsOK (drawOverBudgetLine w v st).ops := by
  unfold drawOverBudgetLine
  split
  · exact opsOK_drawWrappedText w _ _ 12 _ (by decide) st h
  · exact h

theorem opsOK_drawReasonLine (w : WidthFn) (v : Option JSValue)
    (st : RState) (h : opsOK st.ops) :
    opsOK (drawReasonLine w v st).ops := by
  unfold drawReasonLine
  split
  · exact opsOK_drawWrappedText w _ _ 11 _ (by decide) st h
  · exact h

theorem opsOK_drawNotesBlock (wR wB : WidthFn) (v : Option JSValue)
    (st : RState) (h : opsOK st.ops) :
    opsOK (drawNotesBlock wR wB v st).ops := by
  unfold drawNotesBlock
  split
  · show opsOK (drawWrappedText wR (jsOStr v) pdfMargin 11 contentWidth
      (drawWrappedText wB "Notes:" pdfMargin 12 contentWidth
        ⟨st.page, st.y - 6 * SC, st.ops⟩)).ops
    apply opsOK_drawWrappedText wR _ _ 11 _ (by decide)
    apply opsOK_drawWrappedText wB _ _ 12 _ (by decide)
    exact h
  · exact h

theorem opsOK_drawRecItem (wR wB : WidthFn) (i : Nat) (r0 : JSValue)
    (st : RState) (h : opsOK st.ops) :
    opsOK (drawRecItem wR wB i r0 st).ops := by
  apply opsOK_drawDivider
  apply opsOK_drawSourcesBlock
  apply opsOK_drawSpecBlock
  apply opsOK_drawStepsBlock
  apply opsOK_drawCostLine _ _ _ _ _ (by decide)
  apply opsOK_drawCostLine _ _ _ _ _ (by decide)
  apply opsOK_drawRecTitle
  exact h

theorem opsOK_drawRecItems (wR wB : WidthFn) (l : JSList) :
    ∀ (i : Nat) (st : RState), opsOK st.ops →
      opsOK (drawRecItems wR wB i l st).ops := by
  refine JSList.spineIndEl (fun l => ∀ i st, opsOK st.ops →
    opsOK (drawRecItems wR wB i l st).ops) ?_ ?_ l
  · intro i st h
    exact h
  · intro x tl ih i st h
    exact ih _ _ (opsOK_drawRecItem wR wB i x st h)

theorem opsOK_renderSummary (wR wB : WidthFn) (sm : Summary) (st : RState)
    (h : opsOK st.ops) : opsOK (renderSummary wR wB sm st).ops := by
  unfold renderSummary
  split
  · apply opsOK_drawDivider
    apply opsOK_drawNotesBlock
    apply opsOK_drawReasonLine
    apply opsOK_drawOverBudgetLine
    apply opsOK_drawCostLine _ _ _ _ _ (by decide)
    apply opsOK_drawCostLine _ _ _ _ _ (by decide)
    exact opsOK_drawHeading _ 18 (by decide) st h
  · exact h

/-- C8. Every draw call the pipeline records — headings, date line,
summary lines, every wrapped visual line, dividers, raw and placeholder
text — sits at or above the bottom margin, for every width measure, date
string, and request body: the per-line `ensureSpace` page-break check
keeps any line from starting below the margin. -/
theorem c8_no_line_below_margin (wR wB : WidthFn) (dateStr : String)
    (body : JSValue) :
    ∀ op ∈ (renderDoc wR wB dateStr body).ops, bottomMargin ≤ op.y := by
  show opsOK (renderDoc wR wB dateStr body).ops
  have h0 : opsOK initState.ops := fun op hop => absurd hop (List.not_mem_nil op)
  simp only [renderDoc]
  split
  · apply opsOK_drawRecItems
    apply opsOK_drawHeading _ 18 (by decide)
    apply opsOK_renderSummary
    apply opsOK_ensure_draw _ _ _ _ _ (by decide)
    exact opsOK_drawHeading _ 24 (by decide) initState h0
  · split
    · apply opsOK_drawWrappedText wR _ _ 10 _ (by decide)
      apply opsOK_drawHeading _ 18 (by decide)
      apply opsOK_renderSummary
      apply opsOK_ensure_draw _ _ _ _ _ (by decide)
      exact opsOK_drawHeading _ 24 (by decide) initState h0
    · apply opsOK_drawWrappedText wR _ _ 10 _ (by decide)
      apply opsOK_drawHeading _ 18 (by decide)
      apply opsOK_renderSummary
      apply opsOK_ensure_draw _ _ _ _ _ (by decide)
      exact opsOK_drawHeading _ 24 (by decide) initState h0

/-- Witness for C8: the title op of a concrete render sits at the top
margin, above the bottom margin. -/
theorem c8_witness :
    (⟨1, pdfMargin, PAGE_H - 50 * SC, 24,
        "Society-as-a-Service Recommendations"⟩ : Op)
      ∈ (renderDoc wf0 wf0 "d" JSValue.jnull).ops ∧
    bottomMargin ≤ (PAGE_H - 50 * SC : Int) :=
  ⟨by decide,
    c8_no_line_below_margin wf0 wf0 "d" JSValue.jnull
      ⟨1, pdfMargin, PAGE_H - 50 * SC, 24,
        "Society-as-a-Service Recommendations"⟩ (by decide)⟩

/-! ## Claim C9: the rawText fallback is the untouched input -/

/-- C9. When every recovery step of the generate-pdf normalizer fails on
a string input, normalization returns the rawText variant carrying
exactly the original string — not a trimmed, unwrapped, or otherwise
modified version. -/
theorem c9_rawText_untouched (s : String)
    (h : parseJsonFromString s = none) :
    normalizeInput (.jstr s) = ⟨none, some s⟩ := by
  simp [normalizeInput, h]

/-- Witness for C9 on a plain prose string with no recoverable JSON. -/
theorem c9_witness :
    parseJsonFromString "  just some prose  " = none ∧
    normalizeInput (.jstr "  just some prose  ") =
      ⟨none, some "  just some prose  "⟩ :=
  ⟨rfl, c9_rawText_untouched "  just some prose  " rfl⟩

/-! ## Claim C10: `$`/`,`/whitespace-only cost strings display as `$0` -/

/-- A document whose item has the empty string and a `$`/`,`/space-only
string as its two costs. -/
def c10Doc : JSValue :=
  .jobj (.cons "recommendations"
    (.jarr (.cons (.jobj (.cons "serviceName" (.jstr "Housing")
      (.cons "estimatedInitialCost" (.jstr "")
        (.cons "estimatedMonthlyCost" (.jstr " $ ,, ") .nil)))) .nil)) .nil)

/-- C10. A cost string made only of `$`, `,` and whitespace characters —
in particular the empty string — coerces to the finite number 0 (after
`$`/`,` stripping, `Number` of a whitespace-only string is 0), so the
renderer draws the cost line as `$0` rather than omitting it: the
exemplar document renders both `Initial Cost: $0` and
`Monthly Cost: $0`. -/
theorem c10_zero_money (s : String)
    (hs : ∀ c ∈ s.data, c = '$' ∨ c = ',' ∨ jsWsChar c = true) :
    (coerceNumber (some (.jstr s)) = some ⟨0, 0⟩ ∧
      formatMoney (some (.jstr s)) = some "$0") ∧
    "Initial Cost: $0" ∈ (renderDoc wf0 wf0 "d" c10Doc).ops.map Op.text ∧
    "Monthly Cost: $0" ∈ (renderDoc wf0 wf0 "d" c10Doc).ops.map Op.text := by
  have hfilter : ∀ c ∈ s.data.filter (fun c => !(c = '$' || c = ',')),
      jsWsChar c = true := by
    intro c hc
    rcases List.mem_filter.mp hc with ⟨hmem, hpred⟩
    rcases hs c hmem with h1 | h2 | h3
    · subst h1; simp at hpred
    · subst h2; simp at hpred
    · exact h3
  have htrim : jsTrimL (s.data.filter (fun c => !(c = '$' || c = ','))) = [] := by
    unfold jsTrimL
    rw [List.dropWhile_eq_nil_iff.mpr hfilter]
    rfl
  have hcz : coerceNumber (some (.jstr s)) = some ⟨0, 0⟩ := by
    show jsToNumber (jsTrim (String.mk (s.data.filter _))) = some ⟨0, 0⟩
    unfold jsTrim
    rw [htrim]
    rfl
  refine ⟨⟨hcz, ?_⟩, by decide, by decide⟩
  simp only [formatMoney, hcz]
  rfl

/-- Witness for C10 at the string `"$,"`. -/
theorem c10_witness :
    (∀ c ∈ ("$,".data), c = '$' ∨ c = ',' ∨ jsWsChar c = true) ∧
    ((coerceNumber (some (.jstr "$,")) = some ⟨0, 0⟩ ∧
        formatMoney (some (.jstr "$,")) = some "$0") ∧
      "Initial Cost: $0" ∈ (renderDoc wf0 wf0 "d" c10Doc).ops.map Op.text ∧
      "Monthly Cost: $0" ∈ (renderDoc wf0 wf0 "d" c10Doc).ops.map Op.text) :=
  ⟨by decide, c10_zero_money "$," (by decide)⟩

end NS
